import Mathlib

set_option autoImplicit false

/-
Verification of the statistics aggregation engine of the github-stats
repository (src/comments-client.ts second module: calculateTimeMetrics and
calculateStats, together with the isBot helper from src/utils.ts).

Modelling conventions:
- Timestamps are `Int` (milliseconds since the epoch, the value of
  `Date.getTime()`); `Date.now()` is made an explicit parameter `now` of
  `calculateStats`, since the source reads the ambient clock.
- JavaScript numbers produced by divisions (averages, medians,
  participation rates) are modelled as exact rationals `Rat`.
- `Map` objects are association lists in insertion order; `Set` objects are
  duplicate-free lists in insertion order.  JavaScript `Array.prototype.sort`
  is stable, so it is modelled by stable insertion sort.
- `String.prototype.localeCompare` is modelled as code-point lexicographic
  comparison (a deterministic total order, as the source relies on).
-/

/-! ### Association lists (JavaScript `Map`) and sets (JavaScript `Set`) -/

/-- JavaScript `Map.get`: the value stored under key `k`, if any. -/
def alGet {K β : Type} [DecidableEq K] (m : List (K × β)) (k : K) : Option β :=
  (m.find? (fun e => decide (e.1 = k))).map (fun e => e.2)

/-- JavaScript `Map.set`: update the entry for `k` in place, or append a new
entry at the end (insertion order). -/
def alSet {K β : Type} [DecidableEq K] (m : List (K × β)) (k : K) (v : β) : List (K × β) :=
  if (alGet m k).isSome then
    m.map (fun e => if e.1 = k then (e.1, v) else e)
  else
    m ++ [(k, v)]

/-- The `if (!m.has(k)) m.set(k, dflt); f(m.get(k)!)` pattern used throughout
`calculateStats`: mutate the entry for `k`, starting from `dflt` if absent. -/
def alModify {K β : Type} [DecidableEq K] (m : List (K × β)) (k : K) (dflt : β)
    (f : β → β) : List (K × β) :=
  alSet m k (f ((alGet m k).getD dflt))

/-- JavaScript `Set.add`: append if not already present. -/
def setAdd {α : Type} [DecidableEq α] (s : List α) (x : α) : List α :=
  if x ∈ s then s else s ++ [x]

/-- Collect the distinct elements of a list, keeping first occurrences in
order (the contents of a `Set` built by repeated `add`). -/
def dedupFirst {α : Type} [DecidableEq α] (l : List α) : List α :=
  l.foldl setAdd []

/-- Number of distinct elements of a list (`Set.size` after adding all). -/
def distinctCount {α : Type} [DecidableEq α] (l : List α) : Nat :=
  (dedupFirst l).length

/-- Grouping a list into a `Map` keyed by `key` (the
`if (!g.has(k)) g.set(k, []); g.get(k)!.push(x)` loops of `calculateStats`):
keys in first-occurrence order, each group keeping input order. -/
def groupByKey {α K : Type} [DecidableEq K] (key : α → K) (l : List α) :
    List (K × List α) :=
  (dedupFirst (l.map key)).map (fun k => (k, l.filter (fun x => decide (key x = k))))

/-! ### Bot filter (src/utils.ts `isBot`) -/

/-- Char-list substring test, used to model `String.prototype.includes`. -/
def strStartsWith : List Char → List Char → Bool
  | [], _ => true
  | _ :: _, [] => false
  | p :: ps, c :: cs => decide (p = c) && strStartsWith ps cs

/-- Does `pat` occur as a contiguous substring of the second list? -/
def hasSubstr (pat : List Char) : List Char → Bool
  | [] => strStartsWith pat []
  | c :: cs => strStartsWith pat (c :: cs) || hasSubstr pat cs

/-- Mirrors `isBot` (src/utils.ts): case-insensitive substring match against
the fixed patterns `renovate`, `copilot`, `dependabot`. -/
def isBot (username : String) : Bool :=
  let lowercaseUsername := username.data.map Char.toLower
  hasSubstr "renovate".data lowercaseUsername ||
    hasSubstr "copilot".data lowercaseUsername ||
    hasSubstr "dependabot".data lowercaseUsername

/-! ### Data model (src/types.ts) -/

inductive PRState : Type
  | open_ | closed | merged
deriving DecidableEq

structure PRData : Type where
  number : Nat
  title : String
  author : String
  createdAt : Int
  readyForReviewAt : Int
  closedAt : Option Int
  mergedAt : Option Int
  state : PRState
  isDraft : Bool
deriving DecidableEq

inductive ReviewState : Type
  | APPROVED | COMMENTED | CHANGES_REQUESTED
deriving DecidableEq

structure ReviewData : Type where
  prNumber : Nat
  reviewer : String
  state : ReviewState
  submittedAt : Int
deriving DecidableEq

structure ReviewRequestData : Type where
  prNumber : Nat
  reviewer : String
  requestedAt : Int
deriving DecidableEq

structure CommentData : Type where
  prNumber : Nat
  commenter : String
  createdAt : Int
deriving DecidableEq

structure TimeMetrics : Type where
  average : Rat
  min : Int
  max : Int
  median : Rat
deriving DecidableEq

structure ReviewMetrics : Type where
  approved : Nat
  commented : Nat
  changesRequested : Nat
deriving DecidableEq

inductive ReviewStatus : Type
  | APPROVED | COMMENTED | CHANGES_REQUESTED | COMMENTED_ONLY | NOT_REVIEWED | OWN_PR
deriving DecidableEq

structure PersonPRDetail : Type where
  prNumber : Nat
  title : String
  author : String
  createdAt : Int
  readyForReviewAt : Int
  ageInDays : Int
  state : PRState
  isDraft : Bool
  reviewStatus : ReviewStatus
  firstCommentTime : Option Int
  firstReviewTime : Option Int
  timeOpen : Int
  reviewerCount : Nat
  url : String
deriving DecidableEq

structure PersonStats : Type where
  person : String
  prsOpened : Nat
  reviewMetrics : ReviewMetrics
  totalReviewsGiven : Nat
  uniquePRsReviewed : Nat
  reviewParticipationRate : Rat
  eligiblePRsForReview : Int
  timeToFirstComment : Option TimeMetrics
  timeToFirstReview : Option TimeMetrics
  timeToApproval : Option TimeMetrics
  prDetails : List PersonPRDetail
deriving DecidableEq

/-- Input maps keyed by PR number (the `Map<number, T[]>` parameters). -/
abbrev ReviewsMap : Type := List (Nat × List ReviewData)
abbrev RequestsMap : Type := List (Nat × List ReviewRequestData)
abbrev CommentsMap : Type := List (Nat × List CommentData)

/-! ### Sorting relations (stable `Array.prototype.sort` comparators) -/

abbrev intLE (a b : Int) : Prop := a ≤ b

instance : IsTotal Int intLE := ⟨fun a b => Int.le_total a b⟩
instance : IsTrans Int intLE := ⟨fun _ _ _ hab hbc => le_trans hab hbc⟩
instance : DecidableRel intLE := fun a b => Int.decLe a b

abbrev reviewLE (a b : ReviewData) : Prop := a.submittedAt ≤ b.submittedAt

instance : IsTotal ReviewData reviewLE := ⟨fun a b => Int.le_total a.submittedAt b.submittedAt⟩
instance : IsTrans ReviewData reviewLE := ⟨fun _ _ _ hab hbc => le_trans hab hbc⟩
instance : DecidableRel reviewLE := fun a b => Int.decLe a.submittedAt b.submittedAt

abbrev commentLE (a b : CommentData) : Prop := a.createdAt ≤ b.createdAt

instance : IsTotal CommentData commentLE := ⟨fun a b => Int.le_total a.createdAt b.createdAt⟩
instance : IsTrans CommentData commentLE := ⟨fun _ _ _ hab hbc => le_trans hab hbc⟩
instance : DecidableRel commentLE := fun a b => Int.decLe a.createdAt b.createdAt

/-- `[...durations].sort((a, b) => a - b)`. -/
def sortDurations (l : List Int) : List Int := List.insertionSort intLE l

/-- `[...personReviews].sort((a, b) => a.submittedAt - b.submittedAt)`. -/
def sortReviews (l : List ReviewData) : List ReviewData := List.insertionSort reviewLE l

/-- `[...personComments].sort((a, b) => a.createdAt - b.createdAt)`. -/
def sortComments (l : List CommentData) : List CommentData :=
  List.insertionSort commentLE l

/-- Code-point lexicographic strict comparison on char lists, modelling the
deterministic total order of `localeCompare`. -/
def charsLt : List Char → List Char → Bool
  | [], [] => false
  | [], _ :: _ => true
  | _ :: _, [] => false
  | a :: as, b :: bs => if a = b then charsLt as bs else decide (a.val < b.val)

/-- The final comparator of `calculateStats`: PRs opened descending, ties by
person name ascending. `a` may stay before `b` iff this holds. -/
abbrev statsLE (a b : PersonStats) : Prop :=
  b.prsOpened < a.prsOpened ∨
    (a.prsOpened = b.prsOpened ∧ (charsLt a.person.data b.person.data = true ∨ a.person = b.person))

instance : DecidableRel statsLE := fun a b => by unfold statsLE; infer_instance

def sortStats (l : List PersonStats) : List PersonStats := List.insertionSort statsLE l

/-! ### Time metrics (`calculateTimeMetrics`, comments-client.ts 287-303) -/

def calculateTimeMetrics (durations : List Int) : Option TimeMetrics :=
  if durations.length = 0 then
    none
  else
    let sorted := sortDurations durations
    let sum : Int := durations.foldl (fun acc val => acc + val) 0
    some
      { average := ((sum : Int) : Rat) / ((durations.length : Nat) : Rat)
        min := sorted.headD 0
        max := sorted.getLastD 0
        median :=
          if sorted.length % 2 = 0 then
            (((sorted.getD (sorted.length / 2 - 1) 0 : Int) : Rat) +
              ((sorted.getD (sorted.length / 2) 0 : Int) : Rat)) / 2
          else
            ((sorted.getD (sorted.length / 2) 0 : Int) : Rat) }

/-! ### Per-person accumulator (the `personMap` values of `calculateStats`) -/

/-- An entry of a person's `prDetailsMap`. -/
structure DetailStub : Type where
  reviewStatus : ReviewStatus
  firstCommentTime : Option Int
  firstReviewTime : Option Int
deriving DecidableEq

structure PersonAcc : Type where
  prsOpened : Nat
  reviewsApproved : Nat
  reviewsCommented : Nat
  reviewsChangesRequested : Nat
  prsReviewedSet : List Nat
  ownPRNumbers : List Nat
  timeToFirstComment : List Int
  timeToFirstReview : List Int
  timeToApproval : List Int
  prDetailsMap : List (Nat × DetailStub)
deriving DecidableEq

def emptyAcc : PersonAcc :=
  { prsOpened := 0, reviewsApproved := 0, reviewsCommented := 0
    reviewsChangesRequested := 0, prsReviewedSet := [], ownPRNumbers := []
    timeToFirstComment := [], timeToFirstReview := [], timeToApproval := []
    prDetailsMap := [] }

abbrev PersonMap : Type := List (String × PersonAcc)

/-- The review state recorded as a review status (TypeScript stores the same
string). -/
def statusOfState : ReviewState → ReviewStatus
  | .APPROVED => .APPROVED
  | .COMMENTED => .COMMENTED
  | .CHANGES_REQUESTED => .CHANGES_REQUESTED

/-- Is a review a formal review (`APPROVED` or `CHANGES_REQUESTED`)? -/
def formalState : ReviewState → Bool
  | .APPROVED => true
  | .CHANGES_REQUESTED => true
  | .COMMENTED => false

/-! ### Stage 1: seed authors (comments-client.ts 331-354) -/

def seedAuthors (prs : List PRData) (m : PersonMap) : PersonMap :=
  prs.foldl
    (fun m pr =>
      if isBot pr.author then m
      else
        alModify m pr.author emptyAcc (fun d =>
          { d with
              prsOpened := d.prsOpened + 1
              ownPRNumbers := setAdd d.ownPRNumbers pr.number }))
    m

/-! ### Stage 2: fold reviews per PR (comments-client.ts 356-485) -/

/-- `prReviewRequests.find(req => req.reviewer === reviewer)`: the first
request record in array order for the given reviewer (used at lines 416
and 525). -/
def findRequestFor (reqs : List ReviewRequestData) (reviewer : String) :
    Option ReviewRequestData :=
  reqs.find? (fun req => decide (req.reviewer = reviewer))

/-- `prComments.filter(c => c.commenter === reviewer && !isBot(c.commenter))`. -/
def personCommentsOf (prComments : List CommentData) (reviewer : String) :
    List CommentData :=
  prComments.filter (fun c => decide (c.commenter = reviewer) && !isBot c.commenter)

/-- The merged, time-ordered interaction timestamps of a reviewer on a PR:
review submissions plus the reviewer's own comments (lines 424-443; only the
timestamps are consumed). -/
def interactionTimes (sortedReviews : List ReviewData)
    (personComments : List CommentData) : List Int :=
  sortDurations (sortedReviews.map (fun r => r.submittedAt) ++
    personComments.map (fun c => c.createdAt))

/-- The most recently submitted review of a reviewer's review list on a PR:
last element of the stable sort by submission time (lines 397-402). -/
def latestOf (personReviews : List ReviewData) : Option ReviewData :=
  (sortReviews personReviews).getLast?

/-- The timing triple of lines 412-476: time to first comment, time to first
formal review, time to approval, each only when a review request exists and
the elapsed time is non-negative. -/
def computeTiming (prReviewRequests : List ReviewRequestData)
    (prComments : List CommentData) (reviewer : String)
    (sortedReviews : List ReviewData) : Option Int × Option Int × Option Int :=
  match findRequestFor prReviewRequests reviewer with
  | none => (none, none, none)
  | some reviewRequest =>
    let requestTime := reviewRequest.requestedAt
    let personComments := personCommentsOf prComments reviewer
    let allInteractions := interactionTimes sortedReviews personComments
    let firstCommentTime : Option Int :=
      match allInteractions.head? with
      | none => none
      | some t0 =>
        let timeToFirstComment := t0 - requestTime
        if 0 ≤ timeToFirstComment then some timeToFirstComment else none
    let firstReviewTime : Option Int :=
      match sortedReviews.find? (fun r => formalState r.state) with
      | none => none
      | some firstFormalReview =>
        let timeToFirst := firstFormalReview.submittedAt - requestTime
        if 0 ≤ timeToFirst then some timeToFirst else none
    let approvalTime : Option Int :=
      match sortedReviews.find? (fun r => formalState r.state) with
      | none => none
      | some approvalReview =>
        let timeToApprovalValue := approvalReview.submittedAt - requestTime
        if 0 ≤ timeToApprovalValue then some timeToApprovalValue else none
    (firstCommentTime, firstReviewTime, approvalTime)

/-- One reviewer's processing for one PR (the body of the loop at lines
374-484): mark the PR reviewed, tally the latest review's outcome, record
timings, and store the PR detail stub. -/
def processReviewerForPR (prNumber : Nat)
    (prReviewRequests : List ReviewRequestData) (prComments : List CommentData)
    (reviewer : String) (personReviews : List ReviewData) (d : PersonAcc) :
    PersonAcc :=
  match (sortReviews personReviews).getLast? with
  | none => { d with prsReviewedSet := setAdd d.prsReviewedSet prNumber }
  | some latestReview =>
    let t := computeTiming prReviewRequests prComments reviewer
      (sortReviews personReviews)
    { d with
        prsReviewedSet := setAdd d.prsReviewedSet prNumber
        reviewsApproved :=
          d.reviewsApproved + (if latestReview.state = .APPROVED then 1 else 0)
        reviewsCommented :=
          d.reviewsCommented + (if latestReview.state = .COMMENTED then 1 else 0)
        reviewsChangesRequested :=
          d.reviewsChangesRequested +
            (if latestReview.state = .CHANGES_REQUESTED then 1 else 0)
        timeToFirstComment := d.timeToFirstComment ++ t.1.toList
        timeToFirstReview := d.timeToFirstReview ++ t.2.1.toList
        timeToApproval := d.timeToApproval ++ t.2.2.toList
        prDetailsMap :=
          alSet d.prDetailsMap prNumber
            { reviewStatus := statusOfState latestReview.state
              firstCommentTime := t.1
              firstReviewTime := t.2.1 } }

/-- Processing of one `reviews.entries()` element (the body of the loop at
lines 357-485). -/
def processReviewsStep (reviewRequests : RequestsMap) (comments : CommentsMap)
    (m : PersonMap) (entry : Nat × List ReviewData) : PersonMap :=
  let prReviewRequests := (alGet reviewRequests entry.1).getD []
  let prComments := (alGet comments entry.1).getD []
  let filteredReviews := entry.2.filter (fun review => !isBot review.reviewer)
  let reviewsByPerson := groupByKey (fun r => r.reviewer) filteredReviews
  reviewsByPerson.foldl
    (fun m g =>
      alModify m g.1 emptyAcc
        (processReviewerForPR entry.1 prReviewRequests prComments g.1 g.2))
    m

def processReviews (reviews : ReviewsMap) (reviewRequests : RequestsMap)
    (comments : CommentsMap) (m : PersonMap) : PersonMap :=
  reviews.foldl (processReviewsStep reviewRequests comments) m

/-! ### Stage 3: fold stray comments (comments-client.ts 487-548) -/

/-- One commenter's processing for one PR (the body of the loop at lines
502-547): if the person has no detail stub yet, compute time to first comment
(when review-requested) and record a `COMMENTED_ONLY` stub. -/
def processCommenterForPR (prNumber : Nat)
    (prReviewRequests : List ReviewRequestData) (commenter : String)
    (personComments : List CommentData) (d : PersonAcc) : PersonAcc :=
  if (alGet d.prDetailsMap prNumber).isSome then d
  else
    let firstCommentTime : Option Int :=
      match findRequestFor prReviewRequests commenter with
      | none => none
      | some reviewRequest =>
        if 0 < personComments.length then
          match (sortComments personComments).head? with
          | none => none
          | some c0 =>
            let timeToFirstComment := c0.createdAt - reviewRequest.requestedAt
            if 0 ≤ timeToFirstComment then some timeToFirstComment else none
        else none
    { d with
        timeToFirstComment := d.timeToFirstComment ++ firstCommentTime.toList
        prDetailsMap :=
          alSet d.prDetailsMap prNumber
            { reviewStatus := .COMMENTED_ONLY
              firstCommentTime := firstCommentTime
              firstReviewTime := none } }

/-- Processing of one `comments.entries()` element (the body of the loop at
lines 488-548). -/
def processCommentsStep (reviewRequests : RequestsMap) (m : PersonMap)
    (entry : Nat × List CommentData) : PersonMap :=
  let prReviewRequests := (alGet reviewRequests entry.1).getD []
  let filteredComments := entry.2.filter (fun c => !isBot c.commenter)
  let commentsByPerson := groupByKey (fun c => c.commenter) filteredComments
  commentsByPerson.foldl
    (fun m g =>
      alModify m g.1 emptyAcc
        (processCommenterForPR entry.1 prReviewRequests g.1 g.2))
    m

def processComments (comments : CommentsMap) (reviewRequests : RequestsMap)
    (m : PersonMap) : PersonMap :=
  comments.foldl (processCommentsStep reviewRequests) m

/-! ### Stage 4: materialize details and summary (comments-client.ts 550-630) -/

/-- Lines 583-591: the number of unique non-bot identities who submitted any
review on the PR. -/
def reviewerCountFor (reviews : ReviewsMap) (prNumber : Nat) : Nat :=
  (((alGet reviews prNumber).getD []).foldl
      (fun s review => if isBot review.reviewer then s else setAdd s review.reviewer)
      []).length

/-- JavaScript `x || null` on a nullable number: `0` (falsy) becomes `null`
(lines 603-604). -/
def jsOrNull (x : Option Int) : Option Int :=
  match x with
  | some t => if t = 0 then none else some t
  | none => none

/-- One row of a person's `prDetails` list (lines 568-610). -/
def buildDetail (reviews : ReviewsMap) (now : Int) (d : PersonAcc) (pr : PRData) :
    PersonPRDetail :=
  let isOwnPR := decide (pr.number ∈ d.ownPRNumbers)
  let prDetail := alGet d.prDetailsMap pr.number
  let timeOpen : Int :=
    match pr.mergedAt with
    | some mergedAt => mergedAt - pr.readyForReviewAt
    | none =>
      match pr.closedAt with
      | some closedAt => closedAt - pr.readyForReviewAt
      | none => now - pr.readyForReviewAt
  { prNumber := pr.number
    title := pr.title
    author := pr.author
    createdAt := pr.createdAt
    readyForReviewAt := pr.readyForReviewAt
    ageInDays := Int.fdiv (now - pr.readyForReviewAt) 86400000
    state := pr.state
    isDraft := pr.isDraft
    reviewStatus :=
      if isOwnPR then .OWN_PR
      else
        match prDetail with
        | some stub => stub.reviewStatus
        | none => .NOT_REVIEWED
    firstCommentTime := jsOrNull (prDetail.bind (fun stub => stub.firstCommentTime))
    firstReviewTime := jsOrNull (prDetail.bind (fun stub => stub.firstReviewTime))
    timeOpen := timeOpen
    reviewerCount := reviewerCountFor reviews pr.number
    url := "https://github.com/pbstck/app/pull/" ++ toString pr.number }

/-- Lines 553-629: finalize one person's statistics record. -/
def finalizePerson (prs : List PRData) (reviews : ReviewsMap) (now : Int)
    (person : String) (d : PersonAcc) : PersonStats :=
  let totalPRs := prs.length
  let totalReviewsGiven :=
    d.reviewsApproved + d.reviewsCommented + d.reviewsChangesRequested
  let prsReviewedExcludingOwn :=
    d.prsReviewedSet.filter (fun prNumber => !decide (prNumber ∈ d.ownPRNumbers))
  let prsReviewedCount := prsReviewedExcludingOwn.length
  let totalPRsExcludingOwn : Int := (totalPRs : Int) - (d.ownPRNumbers.length : Int)
  let reviewParticipationRate : Rat :=
    if 0 < totalPRsExcludingOwn then
      ((prsReviewedCount : Rat) / ((totalPRsExcludingOwn : Int) : Rat)) * 100
    else 0
  { person := person
    prsOpened := d.prsOpened
    reviewMetrics :=
      { approved := d.reviewsApproved
        commented := d.reviewsCommented
        changesRequested := d.reviewsChangesRequested }
    totalReviewsGiven := totalReviewsGiven
    uniquePRsReviewed := prsReviewedCount
    reviewParticipationRate := reviewParticipationRate
    eligiblePRsForReview := totalPRsExcludingOwn
    timeToFirstComment := calculateTimeMetrics d.timeToFirstComment
    timeToFirstReview := calculateTimeMetrics d.timeToFirstReview
    timeToApproval := calculateTimeMetrics d.timeToApproval
    prDetails := prs.map (buildDetail reviews now d) }

/-- The person map after the three accumulation stages of `calculateStats`. -/
def finalPersonMap (prs : List PRData) (reviews : ReviewsMap)
    (reviewRequests : RequestsMap) (comments : CommentsMap) : PersonMap :=
  processComments comments reviewRequests
    (processReviews reviews reviewRequests comments (seedAuthors prs []))

/-- The statistics aggregation engine (`calculateStats`, comments-client.ts
308-641), with `Date.now()` passed explicitly as `now`. -/
def calculateStats (prs : List PRData) (reviews : ReviewsMap)
    (reviewRequests : RequestsMap) (comments : CommentsMap) (now : Int) :
    List PersonStats :=
  sortStats
    ((finalPersonMap prs reviews reviewRequests comments).map
      (fun e => finalizePerson prs reviews now e.1 e.2))

/-- Concrete witness data: a one-PR window authored by alice. -/
def witPR : PRData := ⟨1, "t", "alice", 0, 0, none, none, .open_, false⟩

def witDetail : PersonPRDetail :=
  ⟨1, "t", "alice", 0, 0, 0, .open_, false, .OWN_PR, none, none, 0, 0,
    "https://github.com/pbstck/app/pull/1"⟩

def witStats : PersonStats :=
  { person := "alice", prsOpened := 1, reviewMetrics := ⟨0, 0, 0⟩
    totalReviewsGiven := 0, uniquePRsReviewed := 0
    reviewParticipationRate := 0, eligiblePRsForReview := 0
    timeToFirstComment := none, timeToFirstReview := none
    timeToApproval := none, prDetails := [witDetail] }

def witRev : ReviewData := ⟨1, "bob", .COMMENTED, 60⟩

def witDetail2 : PersonPRDetail :=
  ⟨1, "t", "alice", 0, 0, 0, .open_, false, .OWN_PR, none, none, 0, 1,
    "https://github.com/pbstck/app/pull/1"⟩

def witStats2 : PersonStats :=
  { person := "alice", prsOpened := 1, reviewMetrics := ⟨0, 0, 0⟩
    totalReviewsGiven := 0, uniquePRsReviewed := 0
    reviewParticipationRate := 0, eligiblePRsForReview := 0
    timeToFirstComment := none, timeToFirstReview := none
    timeToApproval := none, prDetails := [witDetail2] }


/-! ### Association-list lemmas -/

theorem alGet_nil {K β : Type} [DecidableEq K] (k : K) :
    alGet ([] : List (K × β)) k = none := rfl

theorem alGet_cons {K β : Type} [DecidableEq K] (e : K × β) (m : List (K × β)) (k : K) :
    alGet (e :: m) k = if e.1 = k then some e.2 else alGet m k := by
  by_cases h : e.1 = k
  · simp [alGet, List.find?_cons_of_pos, h]
  · simp [alGet, List.find?_cons_of_neg, h]

theorem alGet_eq_none_iff {K β : Type} [DecidableEq K] (m : List (K × β)) (k : K) :
    alGet m k = none ↔ ∀ e ∈ m, e.1 ≠ k := by
  simp [alGet, List.find?_eq_none]

theorem alGet_mapUpdate {K β : Type} [DecidableEq K] (m : List (K × β)) (k : K)
    (v : β) (p : K) :
    alGet (m.map (fun e => if e.1 = k then (e.1, v) else e)) p =
      if p = k then (alGet m k).map (fun _ => v) else alGet m p := by
  induction m with
  | nil => by_cases h : p = k <;> simp [alGet, h]
  | cons e m ih =>
    by_cases hpk : p = k <;> by_cases hek : e.1 = k <;> by_cases hep : e.1 = p <;>
      simp_all [alGet_cons, List.map_cons]

theorem alGet_alSet {K β : Type} [DecidableEq K] (m : List (K × β)) (k : K)
    (v : β) (p : K) :
    alGet (alSet m k v) p = if p = k then some v else alGet m p := by
  unfold alSet
  by_cases hs : (alGet m k).isSome
  · rw [if_pos hs, alGet_mapUpdate]
    by_cases hpk : p = k
    · subst hpk
      obtain ⟨w, hw⟩ := Option.isSome_iff_exists.mp hs
      simp [hw]
    · simp [hpk]
  · rw [if_neg hs]
    have hnone : alGet m k = none := by
      cases h : alGet m k with
      | none => rfl
      | some w => rw [h] at hs; simp at hs
    have hfind : m.find? (fun e => decide (e.1 = k)) = none := by
      unfold alGet at hnone
      cases h : m.find? (fun e => decide (e.1 = k)) with
      | none => rfl
      | some e => rw [h] at hnone; simp at hnone
    by_cases hpk : p = k
    · subst hpk
      rw [if_pos rfl]
      unfold alGet
      rw [List.find?_append, hfind, Option.none_or]
      simp [List.find?]
    · rw [if_neg hpk]
      unfold alGet
      rw [List.find?_append]
      have hsingle : List.find? (fun e => decide (e.1 = p)) [(k, v)] = none := by
        have hne : (decide ((k, v).1 = p)) = false := by
          simp only [decide_eq_false_iff_not]
          exact fun h => hpk h.symm
        simp [List.find?, hne]
      rw [hsingle]
      cases m.find? (fun e => decide (e.1 = p)) <;> rfl

theorem alGet_alModify {K β : Type} [DecidableEq K] (m : List (K × β)) (k : K)
    (dflt : β) (f : β → β) (p : K) :
    alGet (alModify m k dflt f) p =
      if p = k then some (f ((alGet m k).getD dflt)) else alGet m p := by
  unfold alModify
  exact alGet_alSet m k _ p

theorem mem_alSet_elim {K β : Type} [DecidableEq K] {m : List (K × β)} {k : K}
    {v : β} {e : K × β} (h : e ∈ alSet m k v) : e ∈ m ∨ e.2 = v := by
  unfold alSet at h
  by_cases hs : (alGet m k).isSome
  · rw [if_pos hs] at h
    obtain ⟨e₀, he₀, heq⟩ := List.mem_map.mp h
    by_cases h0 : e₀.1 = k
    · right
      rw [if_pos h0] at heq
      rw [← heq]
    · left
      rw [if_neg h0] at heq
      rwa [← heq]
  · rw [if_neg hs] at h
    rcases List.mem_append.mp h with h1 | h1
    · exact Or.inl h1
    · right
      have : e = (k, v) := by simpa using h1
      rw [this]

theorem mem_alModify_elim {K β : Type} [DecidableEq K] {m : List (K × β)} {k : K}
    {dflt : β} {f : β → β} {e : K × β} (h : e ∈ alModify m k dflt f) :
    e ∈ m ∨ e.2 = f ((alGet m k).getD dflt) :=
  mem_alSet_elim h

theorem keys_alSet_of_isSome {K β : Type} [DecidableEq K] (m : List (K × β)) (k : K)
    (v : β) (hs : (alGet m k).isSome) :
    (alSet m k v).map (fun e => e.1) = m.map (fun e => e.1) := by
  unfold alSet
  rw [if_pos hs, List.map_map]
  apply List.map_congr_left
  intro e _
  by_cases h : e.1 = k <;> simp [h]

theorem keys_alSet_of_none {K β : Type} [DecidableEq K] (m : List (K × β)) (k : K)
    (v : β) (hs : alGet m k = none) :
    (alSet m k v).map (fun e => e.1) = m.map (fun e => e.1) ++ [k] := by
  unfold alSet
  rw [hs]
  simp

theorem nodupKeys_alSet {K β : Type} [DecidableEq K] (m : List (K × β)) (k : K)
    (v : β) (hnd : (m.map (fun e => e.1)).Nodup) :
    ((alSet m k v).map (fun e => e.1)).Nodup := by
  cases hs : alGet m k with
  | some w =>
    rw [keys_alSet_of_isSome m k v (by simp [hs])]
    exact hnd
  | none =>
    rw [keys_alSet_of_none m k v hs]
    have hk : k ∉ m.map (fun e => e.1) := by
      intro hmem
      obtain ⟨e, he, hek⟩ := List.mem_map.mp hmem
      exact (alGet_eq_none_iff m k).mp hs e he hek
    refine List.Nodup.append hnd (List.nodup_singleton k) ?_
    intro a ha hb
    have haK : a = k := by simpa using hb
    exact hk (haK ▸ ha)

theorem nodupKeys_alModify {K β : Type} [DecidableEq K] (m : List (K × β)) (k : K)
    (dflt : β) (f : β → β) (hnd : (m.map (fun e => e.1)).Nodup) :
    ((alModify m k dflt f).map (fun e => e.1)).Nodup :=
  nodupKeys_alSet m k _ hnd

theorem alGet_of_mem_nodupKeys {K β : Type} [DecidableEq K] {m : List (K × β)}
    {e : K × β} (hnd : (m.map (fun x => x.1)).Nodup) (he : e ∈ m) :
    alGet m e.1 = some e.2 := by
  induction m with
  | nil => cases he
  | cons x m ih =>
    rcases List.mem_cons.mp he with h | h
    · subst h
      simp [alGet_cons]
    · have hx : x.1 ≠ e.1 := by
        intro hcontra
        have : e.1 ∈ m.map (fun x => x.1) := List.mem_map.mpr ⟨e, h, rfl⟩
        rw [← hcontra] at this
        exact (List.nodup_cons.mp hnd).1 this
      rw [alGet_cons, if_neg hx]
      exact ih (List.nodup_cons.mp hnd).2 h

/-! ### Set lemmas -/

theorem mem_setAdd {α : Type} [DecidableEq α] {s : List α} {x y : α} :
    y ∈ setAdd s x ↔ y ∈ s ∨ y = x := by
  unfold setAdd
  by_cases h : x ∈ s
  · simp only [if_pos h]
    constructor
    · exact Or.inl
    · rintro (hy | rfl)
      · exact hy
      · exact h
  · simp [if_neg h]

theorem nodup_setAdd {α : Type} [DecidableEq α] {s : List α} (x : α)
    (h : s.Nodup) : (setAdd s x).Nodup := by
  unfold setAdd
  by_cases hx : x ∈ s
  · simpa [hx]
  · simpa [hx, List.nodup_append] using h

theorem setAdd_of_mem {α : Type} [DecidableEq α] {s : List α} {x : α} (h : x ∈ s) :
    setAdd s x = s := by simp [setAdd, h]

theorem setAdd_of_not_mem {α : Type} [DecidableEq α] {s : List α} {x : α}
    (h : x ∉ s) : setAdd s x = s ++ [x] := by simp [setAdd, h]

theorem mem_foldl_setAdd {α : Type} [DecidableEq α] (l : List α) (acc : List α)
    (y : α) : y ∈ l.foldl setAdd acc ↔ y ∈ acc ∨ y ∈ l := by
  induction l generalizing acc with
  | nil => simp
  | cons x l ih =>
    rw [List.foldl_cons, ih]
    rw [mem_setAdd]
    constructor
    · rintro ((hy | rfl) | hy)
      · exact Or.inl hy
      · exact Or.inr (List.mem_cons_self _ _)
      · exact Or.inr (List.mem_cons_of_mem _ hy)
    · rintro (hy | hy)
      · exact Or.inl (Or.inl hy)
      · rcases List.mem_cons.mp hy with rfl | hy
        · exact Or.inl (Or.inr rfl)
        · exact Or.inr hy

theorem nodup_foldl_setAdd {α : Type} [DecidableEq α] (l : List α) (acc : List α)
    (h : acc.Nodup) : (l.foldl setAdd acc).Nodup := by
  induction l generalizing acc with
  | nil => simpa
  | cons x l ih => exact ih _ (nodup_setAdd x h)

theorem foldl_setAdd_of_nodup_disjoint {α : Type} [DecidableEq α] (l : List α)
    (acc : List α) (hl : l.Nodup) (hdisj : ∀ y ∈ l, y ∉ acc) :
    l.foldl setAdd acc = acc ++ l := by
  induction l generalizing acc with
  | nil => simp
  | cons x l ih =>
    rw [List.foldl_cons, setAdd_of_not_mem (hdisj x (List.mem_cons_self _ _))]
    rw [ih (acc ++ [x]) (List.nodup_cons.mp hl).2]
    · simp
    · intro y hy hmem
      rcases List.mem_append.mp hmem with h1 | h1
      · exact hdisj y (List.mem_cons_of_mem _ hy) h1
      · have : y = x := by simpa using h1
        subst this
        exact (List.nodup_cons.mp hl).1 hy

theorem filter_foldl_setAdd {α : Type} [DecidableEq α] (l : List α) (acc : List α)
    (q : α → Bool) :
    (l.foldl setAdd acc).filter q = (l.filter q).foldl setAdd (acc.filter q) := by
  induction l generalizing acc with
  | nil => simp
  | cons x l ih =>
    rw [List.foldl_cons, ih]
    have hstep : List.filter q (setAdd acc x) =
        if q x = true then setAdd (List.filter q acc) x else List.filter q acc := by
      unfold setAdd
      by_cases hx : x ∈ acc
      · rw [if_pos hx]
        by_cases hq : q x = true
        · rw [if_pos hq, if_pos (List.mem_filter.mpr ⟨hx, hq⟩)]
        · rw [if_neg hq]
      · rw [if_neg hx, List.filter_append]
        by_cases hq : q x = true
        · rw [if_pos hq, if_neg (fun hmem => hx (List.mem_filter.mp hmem).1)]
          simp [hq]
        · simp [hq]
    rw [hstep, List.filter_cons]
    by_cases hq : q x = true
    · rw [if_pos hq, if_pos hq, List.foldl_cons]
    · rw [if_neg hq, if_neg hq]

/-! ### Sorted-list lemmas -/

theorem sorted_getLast?_max {α : Type} {r : α → α → Prop} :
    ∀ {l : List α}, l.Sorted r → ∀ {y : α}, l.getLast? = some y →
      ∀ {x : α}, x ∈ l → x = y ∨ r x y
  | [], _, _, hy, _, hx => by cases hy
  | [a], _, y, hy, x, hx => by
    have hxa : x = a := by simpa using hx
    have hya : a = y := by simpa using hy
    exact Or.inl (hxa.trans hya)
  | a :: b :: t, hs, y, hy, x, hx => by
    rw [List.getLast?_cons_cons] at hy
    have hst : (b :: t).Sorted r := (List.sorted_cons.mp hs).2
    have hra : ∀ z ∈ b :: t, r a z := (List.sorted_cons.mp hs).1
    rcases List.mem_cons.mp hx with rfl | hx
    · exact Or.inr (hra y (List.mem_of_getLast?_eq_some hy))
    · exact sorted_getLast?_max hst hy hx

theorem sorted_head?_min {α : Type} {r : α → α → Prop} {l : List α}
    (hs : l.Sorted r) {y : α} (hy : l.head? = some y) {x : α} (hx : x ∈ l) :
    x = y ∨ r y x := by
  cases l with
  | nil => cases hy
  | cons a t =>
    have hya : a = y := by simpa using hy
    subst hya
    rcases List.mem_cons.mp hx with rfl | hx
    · exact Or.inl rfl
    · exact Or.inr ((List.sorted_cons.mp hs).1 x hx)

theorem sortReviews_sorted (l : List ReviewData) : (sortReviews l).Sorted reviewLE :=
  List.sorted_insertionSort reviewLE l

theorem sortReviews_perm (l : List ReviewData) : List.Perm (sortReviews l) l :=
  List.perm_insertionSort reviewLE l

theorem sortDurations_sorted (l : List Int) : (sortDurations l).Sorted intLE :=
  List.sorted_insertionSort intLE l

theorem sortDurations_perm (l : List Int) : List.Perm (sortDurations l) l :=
  List.perm_insertionSort intLE l

theorem sortComments_sorted (l : List CommentData) :
    (sortComments l).Sorted commentLE :=
  List.sorted_insertionSort commentLE l

theorem sortComments_perm (l : List CommentData) : List.Perm (sortComments l) l :=
  List.perm_insertionSort commentLE l

/-- The most recently submitted review is a member of the list and its
timestamp dominates all others. -/
theorem latestOf_spec {revs : List ReviewData} {r : ReviewData}
    (h : latestOf revs = some r) :
    r ∈ revs ∧ ∀ x ∈ revs, x.submittedAt ≤ r.submittedAt := by
  unfold latestOf at h
  have hrmem : r ∈ revs :=
    (sortReviews_perm revs).mem_iff.mp (List.mem_of_getLast?_eq_some h)
  refine ⟨hrmem, fun x hx => ?_⟩
  have hxs : x ∈ sortReviews revs := (sortReviews_perm revs).mem_iff.mpr hx
  rcases sorted_getLast?_max (sortReviews_sorted revs) h hxs with rfl | hle
  · exact le_refl _
  · exact hle

/-! ### groupByKey lemmas -/

theorem nodup_dedupFirst {α : Type} [DecidableEq α] (l : List α) :
    (dedupFirst l).Nodup :=
  nodup_foldl_setAdd l [] List.nodup_nil

theorem mem_dedupFirst {α : Type} [DecidableEq α] {l : List α} {x : α} :
    x ∈ dedupFirst l ↔ x ∈ l := by
  unfold dedupFirst
  rw [mem_foldl_setAdd]
  constructor
  · rintro (h | h)
    · cases h
    · exact h
  · exact Or.inr

theorem keys_groupByKey {α K : Type} [DecidableEq K] (key : α → K) (l : List α) :
    (groupByKey key l).map (fun e => e.1) = dedupFirst (l.map key) := by
  unfold groupByKey
  rw [List.map_map]
  have hcomp : ((fun e : K × List α => e.1) ∘
      fun k : K => (k, l.filter (fun x => decide (key x = k)))) = id := rfl
  rw [hcomp, List.map_id]

theorem nodup_keys_groupByKey {α K : Type} [DecidableEq K] (key : α → K)
    (l : List α) : ((groupByKey key l).map (fun e => e.1)).Nodup := by
  rw [keys_groupByKey]
  exact nodup_dedupFirst _

theorem mem_keys_groupByKey {α K : Type} [DecidableEq K] {key : α → K}
    {l : List α} {k : K} :
    (k ∈ (groupByKey key l).map (fun e => e.1)) ↔ ∃ x ∈ l, key x = k := by
  rw [keys_groupByKey, mem_dedupFirst]
  simp

theorem mem_groupByKey_eq {α K : Type} [DecidableEq K] {key : α → K} {l : List α}
    {e : K × List α} (he : e ∈ groupByKey key l) :
    e.2 = l.filter (fun x => decide (key x = e.1)) := by
  unfold groupByKey at he
  obtain ⟨k, _, hk⟩ := List.mem_map.mp he
  rw [← hk]

/-! ### Generic fold-over-groups lemmas for the person map -/

theorem alGet_foldGroups_not_mem {β : Type} (groups : List (String × β))
    (g : String → β → PersonAcc → PersonAcc) (m : PersonMap) (p : String)
    (hp : p ∉ groups.map (fun e => e.1)) :
    alGet (groups.foldl (fun m e => alModify m e.1 emptyAcc (g e.1 e.2)) m) p =
      alGet m p := by
  induction groups generalizing m with
  | nil => rfl
  | cons e gs ih =>
    rw [List.foldl_cons]
    have hpe : p ≠ e.1 := by
      intro h
      exact hp (by simp [h])
    rw [ih _ (fun h => hp (by simp [h]))]
    rw [alGet_alModify, if_neg hpe]

theorem alGet_foldGroups {β : Type} (groups : List (String × β))
    (g : String → β → PersonAcc → PersonAcc) (m : PersonMap) (p : String)
    (hnd : (groups.map (fun e => e.1)).Nodup) :
    alGet (groups.foldl (fun m e => alModify m e.1 emptyAcc (g e.1 e.2)) m) p =
      match alGet groups p with
      | some b => some (g p b ((alGet m p).getD emptyAcc))
      | none => alGet m p := by
  induction groups generalizing m with
  | nil => rfl
  | cons e gs ih =>
    rw [List.foldl_cons]
    by_cases hpe : e.1 = p
    · subst hpe
      have hnot : e.1 ∉ gs.map (fun x => x.1) := (List.nodup_cons.mp hnd).1
      rw [alGet_foldGroups_not_mem gs g _ e.1 hnot]
      rw [alGet_alModify, if_pos rfl]
      rw [alGet_cons, if_pos rfl]
    · rw [ih _ (List.nodup_cons.mp hnd).2]
      rw [alGet_cons, if_neg hpe]
      rw [alGet_alModify, if_neg (fun h => hpe h.symm)]

/-! ### Characterizing the seeding stage -/

/-- The seeding predicate: `pr` contributes to person `p`. -/
def authoredBy (p : String) (pr : PRData) : Bool :=
  !isBot pr.author && decide (pr.author = p)

/-- The cumulative effect of the seeding stage on one person's accumulator. -/
def seedP (p : String) (prs : List PRData) (a : PersonAcc) : PersonAcc :=
  prs.foldl
    (fun d pr =>
      if authoredBy p pr then
        { d with
            prsOpened := d.prsOpened + 1
            ownPRNumbers := setAdd d.ownPRNumbers pr.number }
      else d)
    a

theorem seedP_nil (p : String) (a : PersonAcc) : seedP p [] a = a := rfl

theorem seedP_cons (p : String) (pr : PRData) (prs : List PRData) (a : PersonAcc) :
    seedP p (pr :: prs) a =
      seedP p prs
        (if authoredBy p pr then
          { a with
              prsOpened := a.prsOpened + 1
              ownPRNumbers := setAdd a.ownPRNumbers pr.number }
        else a) := rfl

theorem seed_get (prs : List PRData) (m₀ : PersonMap) (p : String) :
    alGet (seedAuthors prs m₀) p =
      match alGet m₀ p with
      | some a => some (seedP p prs a)
      | none =>
        if prs.any (authoredBy p) then some (seedP p prs emptyAcc) else none := by
  induction prs generalizing m₀ with
  | nil => cases h0 : alGet m₀ p <;> simp [seedAuthors, seedP, h0]
  | cons pr prs ih =>
    have hstep : seedAuthors (pr :: prs) m₀ =
        seedAuthors prs
          (if isBot pr.author then m₀
           else
             alModify m₀ pr.author emptyAcc (fun d =>
               { d with
                   prsOpened := d.prsOpened + 1
                   ownPRNumbers := setAdd d.ownPRNumbers pr.number })) := by
      unfold seedAuthors
      rw [List.foldl_cons]
    rw [hstep]
    by_cases hb : isBot pr.author
    · rw [if_pos hb, ih]
      have hab : authoredBy p pr = false := by
        unfold authoredBy
        rw [hb]
        rfl
      cases h0 : alGet m₀ p with
      | some a => simp [seedP_cons, hab]
      | none => simp [seedP_cons, hab, List.any_cons]
    · rw [if_neg hb]
      by_cases hap : pr.author = p
      · have hb2 : isBot pr.author = false := by
          cases hbv : isBot pr.author with
          | true => exact absurd hbv hb
          | false => rfl
        rw [hap] at hb2
        have hab : authoredBy p pr = true := by
          unfold authoredBy
          simp [hap, hb2]
        rw [ih]
        rw [alGet_alModify, hap, if_pos rfl]
        cases h0 : alGet m₀ p with
        | some a => simp [seedP_cons, hab]
        | none => simp [seedP_cons, hab, List.any_cons]
      · have hab : authoredBy p pr = false := by
          unfold authoredBy
          simp [hap]
        rw [ih]
        rw [alGet_alModify, if_neg (fun h => hap h.symm)]
        cases h0 : alGet m₀ p with
        | some a => simp [seedP_cons, hab]
        | none => simp [seedP_cons, hab, List.any_cons]

theorem seedP_ownPRNumbers (p : String) (prs : List PRData) (a : PersonAcc) :
    (seedP p prs a).ownPRNumbers =
      ((prs.filter (authoredBy p)).map (fun pr => pr.number)).foldl setAdd
        a.ownPRNumbers := by
  induction prs generalizing a with
  | nil => rfl
  | cons pr prs ih =>
    rw [seedP_cons, List.filter_cons]
    by_cases hab : authoredBy p pr = true
    · rw [if_pos hab, if_pos hab, ih, List.map_cons, List.foldl_cons]
    · rw [if_neg hab, if_neg hab, ih]

theorem seedP_prsOpened (p : String) (prs : List PRData) (a : PersonAcc) :
    (seedP p prs a).prsOpened =
      a.prsOpened + (prs.filter (authoredBy p)).length := by
  induction prs generalizing a with
  | nil => rfl
  | cons pr prs ih =>
    rw [seedP_cons, List.filter_cons]
    by_cases hab : authoredBy p pr = true
    · rw [if_pos hab, if_pos hab, ih]
      simp only [List.length_cons]
      omega
    · rw [if_neg hab, if_neg hab, ih]

theorem seedP_prsReviewedSet (p : String) (prs : List PRData) (a : PersonAcc) :
    (seedP p prs a).prsReviewedSet = a.prsReviewedSet := by
  induction prs generalizing a with
  | nil => rfl
  | cons pr prs ih =>
    rw [seedP_cons]
    by_cases hab : authoredBy p pr = true
    · rw [if_pos hab, ih]
    · rw [if_neg hab, ih]

theorem seedP_prDetailsMap (p : String) (prs : List PRData) (a : PersonAcc) :
    (seedP p prs a).prDetailsMap = a.prDetailsMap := by
  induction prs generalizing a with
  | nil => rfl
  | cons pr prs ih =>
    rw [seedP_cons]
    by_cases hab : authoredBy p pr = true
    · rw [if_pos hab, ih]
    · rw [if_neg hab, ih]

/-! ### Projections of the per-reviewer and per-commenter steps -/

theorem processReviewerForPR_of_latest {revs : List ReviewData} {r : ReviewData}
    (hr : latestOf revs = some r) (prNumber : Nat)
    (reqs : List ReviewRequestData) (cmts : List CommentData) (reviewer : String)
    (d : PersonAcc) :
    processReviewerForPR prNumber reqs cmts reviewer revs d =
      { d with
          prsReviewedSet := setAdd d.prsReviewedSet prNumber
          reviewsApproved :=
            d.reviewsApproved + (if r.state = .APPROVED then 1 else 0)
          reviewsCommented :=
            d.reviewsCommented + (if r.state = .COMMENTED then 1 else 0)
          reviewsChangesRequested :=
            d.reviewsChangesRequested +
              (if r.state = .CHANGES_REQUESTED then 1 else 0)
          timeToFirstComment :=
            d.timeToFirstComment ++
              (computeTiming reqs cmts reviewer (sortReviews revs)).1.toList
          timeToFirstReview :=
            d.timeToFirstReview ++
              (computeTiming reqs cmts reviewer (sortReviews revs)).2.1.toList
          timeToApproval :=
            d.timeToApproval ++
              (computeTiming reqs cmts reviewer (sortReviews revs)).2.2.toList
          prDetailsMap :=
            alSet d.prDetailsMap prNumber
              { reviewStatus := statusOfState r.state
                firstCommentTime :=
                  (computeTiming reqs cmts reviewer (sortReviews revs)).1
                firstReviewTime :=
                  (computeTiming reqs cmts reviewer (sortReviews revs)).2.1 } } := by
  unfold latestOf at hr
  unfold processReviewerForPR
  rw [hr]

theorem processReviewerForPR_ownPRNumbers (prNumber : Nat)
    (reqs : List ReviewRequestData) (cmts : List CommentData) (reviewer : String)
    (revs : List ReviewData) (d : PersonAcc) :
    (processReviewerForPR prNumber reqs cmts reviewer revs d).ownPRNumbers =
      d.ownPRNumbers := by
  unfold processReviewerForPR
  cases h : (sortReviews revs).getLast? <;> rfl

theorem processReviewerForPR_prsReviewedSet (prNumber : Nat)
    (reqs : List ReviewRequestData) (cmts : List CommentData) (reviewer : String)
    (revs : List ReviewData) (d : PersonAcc) :
    (processReviewerForPR prNumber reqs cmts reviewer revs d).prsReviewedSet =
      setAdd d.prsReviewedSet prNumber := by
  unfold processReviewerForPR
  cases h : (sortReviews revs).getLast? <;> rfl

theorem processCommenterForPR_ownPRNumbers (prNumber : Nat)
    (reqs : List ReviewRequestData) (commenter : String)
    (cmts : List CommentData) (d : PersonAcc) :
    (processCommenterForPR prNumber reqs commenter cmts d).ownPRNumbers =
      d.ownPRNumbers := by
  unfold processCommenterForPR
  by_cases h : (alGet d.prDetailsMap prNumber).isSome <;> simp [h]

theorem processCommenterForPR_prsReviewedSet (prNumber : Nat)
    (reqs : List ReviewRequestData) (commenter : String)
    (cmts : List CommentData) (d : PersonAcc) :
    (processCommenterForPR prNumber reqs commenter cmts d).prsReviewedSet =
      d.prsReviewedSet := by
  unfold processCommenterForPR
  by_cases h : (alGet d.prDetailsMap prNumber).isSome <;> simp [h]

/-! ### Person-map observables through the processing stages -/

/-- The `ownPRNumbers` set recorded for person `p` (empty if `p` unknown). -/
def ownOf (m : PersonMap) (p : String) : List Nat :=
  ((alGet m p).getD emptyAcc).ownPRNumbers

/-- The `prsReviewedSet` recorded for person `p` (empty if `p` unknown). -/
def reviewedOf (m : PersonMap) (p : String) : List Nat :=
  ((alGet m p).getD emptyAcc).prsReviewedSet

/-- The PR numbers, in map order, of review-map entries on which person `p`
submitted at least one non-bot review. -/
def prNumbersReviewedBy (reviews : ReviewsMap) (p : String) : List Nat :=
  (reviews.filter
      (fun entry => entry.2.any (fun r => !isBot r.reviewer && decide (r.reviewer = p)))).map
    (fun entry => entry.1)

theorem getDObs_foldGroups {β γ : Type} (F : PersonAcc → γ)
    (groups : List (String × β)) (g : String → β → PersonAcc → PersonAcc)
    (m : PersonMap) (p : String) (hnd : (groups.map (fun e => e.1)).Nodup)
    (hF : ∀ k b d, F (g k b d) = F d) :
    F ((alGet (groups.foldl (fun m e => alModify m e.1 emptyAcc (g e.1 e.2)) m) p).getD
        emptyAcc) =
      F ((alGet m p).getD emptyAcc) := by
  rw [alGet_foldGroups groups g m p hnd]
  cases halGet : alGet groups p with
  | none => rfl
  | some b => simp [hF]

theorem alGet_groups_some_key {β : Type} {groups : List (String × β)} {p : String}
    {b : β} (h : alGet groups p = some b) : ∃ e ∈ groups, e.1 = p := by
  unfold alGet at h
  cases hfind : groups.find? (fun e => decide (e.1 = p)) with
  | none => rw [hfind] at h; simp at h
  | some e =>
    refine ⟨e, List.mem_of_find?_eq_some hfind, ?_⟩
    have := List.find?_some hfind
    simpa using this

theorem ownOf_processReviewsStep (reviewRequests : RequestsMap)
    (comments : CommentsMap) (m : PersonMap) (entry : Nat × List ReviewData)
    (p : String) :
    ownOf (processReviewsStep reviewRequests comments m entry) p = ownOf m p := by
  unfold processReviewsStep ownOf
  exact getDObs_foldGroups (fun d => d.ownPRNumbers) _ _ m p
    (nodup_keys_groupByKey _ _)
    (fun k b d => processReviewerForPR_ownPRNumbers entry.1 _ _ k b d)

theorem ownOf_processReviews (reviews : ReviewsMap) (reviewRequests : RequestsMap)
    (comments : CommentsMap) (m : PersonMap) (p : String) :
    ownOf (processReviews reviews reviewRequests comments m) p = ownOf m p := by
  induction reviews generalizing m with
  | nil => rfl
  | cons entry rest ih =>
    have hstep : processReviews (entry :: rest) reviewRequests comments m =
        processReviews rest reviewRequests comments
          (processReviewsStep reviewRequests comments m entry) := by
      unfold processReviews
      rw [List.foldl_cons]
    rw [hstep, ih, ownOf_processReviewsStep]

theorem ownOf_processCommentsStep (reviewRequests : RequestsMap) (m : PersonMap)
    (entry : Nat × List CommentData) (p : String) :
    ownOf (processCommentsStep reviewRequests m entry) p = ownOf m p := by
  unfold processCommentsStep ownOf
  exact getDObs_foldGroups (fun d => d.ownPRNumbers) _ _ m p
    (nodup_keys_groupByKey _ _)
    (fun k b d => processCommenterForPR_ownPRNumbers entry.1 _ k b d)

theorem ownOf_processComments (comments : CommentsMap)
    (reviewRequests : RequestsMap) (m : PersonMap) (p : String) :
    ownOf (processComments comments reviewRequests m) p = ownOf m p := by
  induction comments generalizing m with
  | nil => rfl
  | cons entry rest ih =>
    have hstep : processComments (entry :: rest) reviewRequests m =
        processComments rest reviewRequests
          (processCommentsStep reviewRequests m entry) := by
      unfold processComments
      rw [List.foldl_cons]
    rw [hstep, ih, ownOf_processCommentsStep]

theorem reviewedOf_processReviewsStep (reviewRequests : RequestsMap)
    (comments : CommentsMap) (m : PersonMap) (entry : Nat × List ReviewData)
    (p : String) :
    reviewedOf (processReviewsStep reviewRequests comments m entry) p =
      if entry.2.any (fun r => !isBot r.reviewer && decide (r.reviewer = p)) then
        setAdd (reviewedOf m p) entry.1
      else reviewedOf m p := by
  unfold processReviewsStep reviewedOf
  rw [alGet_foldGroups _ _ m p (nodup_keys_groupByKey _ _)]
  cases hg : alGet
      (groupByKey (fun r => r.reviewer)
        (entry.2.filter (fun review => !isBot review.reviewer))) p with
  | some b =>
    obtain ⟨e, hemem, hekey⟩ := alGet_groups_some_key hg
    have hpkeys : p ∈ (groupByKey (fun r => r.reviewer)
        (entry.2.filter (fun review => !isBot review.reviewer))).map (fun x => x.1) :=
      List.mem_map.mpr ⟨e, hemem, hekey⟩
    obtain ⟨x, hxmem, hxkey⟩ := mem_keys_groupByKey.mp hpkeys
    have hxin : x ∈ entry.2 := (List.mem_filter.mp hxmem).1
    have hxbot : (!isBot x.reviewer) = true := (List.mem_filter.mp hxmem).2
    have hxbot2 : (!isBot p) = true := hxkey ▸ hxbot
    have hany : entry.2.any (fun r => !isBot r.reviewer && decide (r.reviewer = p)) = true :=
      List.any_eq_true.mpr ⟨x, hxin, by simp [hxkey, hxbot2]⟩
    rw [if_pos hany]
    simp only [Option.getD_some]
    rw [processReviewerForPR_prsReviewedSet]
  | none =>
    have hnone := (alGet_eq_none_iff _ _).mp hg
    have hany : entry.2.any (fun r => !isBot r.reviewer && decide (r.reviewer = p)) = false := by
      cases hv : entry.2.any (fun r => !isBot r.reviewer && decide (r.reviewer = p)) with
      | false => rfl
      | true =>
        obtain ⟨x, hxin, hx⟩ := List.any_eq_true.mp hv
        have hxbot : (!isBot x.reviewer) = true := by
          cases hb : isBot x.reviewer <;> simp [hb] at hx ⊢
        have hxkey : x.reviewer = p := by
          simp [hxbot] at hx
          exact hx
        have hpkeys : p ∈ (groupByKey (fun r => r.reviewer)
            (entry.2.filter (fun review => !isBot review.reviewer))).map (fun e => e.1) :=
          mem_keys_groupByKey.mpr ⟨x, List.mem_filter.mpr ⟨hxin, hxbot⟩, hxkey⟩
        obtain ⟨e, hemem, hekey⟩ := List.mem_map.mp hpkeys
        exact absurd hekey (hnone e hemem)
    rw [hany]
    simp

theorem reviewedOf_processReviews (reviews : ReviewsMap)
    (reviewRequests : RequestsMap) (comments : CommentsMap) (m : PersonMap)
    (p : String) :
    reviewedOf (processReviews reviews reviewRequests comments m) p =
      (prNumbersReviewedBy reviews p).foldl setAdd (reviewedOf m p) := by
  induction reviews generalizing m with
  | nil => rfl
  | cons entry rest ih =>
    have hstep : processReviews (entry :: rest) reviewRequests comments m =
        processReviews rest reviewRequests comments
          (processReviewsStep reviewRequests comments m entry) := by
      unfold processReviews
      rw [List.foldl_cons]
    rw [hstep, ih, reviewedOf_processReviewsStep]
    unfold prNumbersReviewedBy
    rw [List.filter_cons]
    by_cases hany :
        entry.2.any (fun r => !isBot r.reviewer && decide (r.reviewer = p)) = true
    · rw [if_pos hany, if_pos hany, List.map_cons, List.foldl_cons]
    · rw [if_neg hany, if_neg hany]

theorem reviewedOf_processCommentsStep (reviewRequests : RequestsMap)
    (m : PersonMap) (entry : Nat × List CommentData) (p : String) :
    reviewedOf (processCommentsStep reviewRequests m entry) p = reviewedOf m p := by
  unfold processCommentsStep reviewedOf
  exact getDObs_foldGroups (fun d => d.prsReviewedSet) _ _ m p
    (nodup_keys_groupByKey _ _)
    (fun k b d => processCommenterForPR_prsReviewedSet entry.1 _ k b d)

theorem reviewedOf_processComments (comments : CommentsMap)
    (reviewRequests : RequestsMap) (m : PersonMap) (p : String) :
    reviewedOf (processComments comments reviewRequests m) p = reviewedOf m p := by
  induction comments generalizing m with
  | nil => rfl
  | cons entry rest ih =>
    have hstep : processComments (entry :: rest) reviewRequests m =
        processComments rest reviewRequests
          (processCommentsStep reviewRequests m entry) := by
      unfold processComments
      rw [List.foldl_cons]
    rw [hstep, ih, reviewedOf_processCommentsStep]

/-! ### Key uniqueness through the stages -/

theorem nodupKeys_foldGroups {β : Type} (groups : List (String × β))
    (g : String → β → PersonAcc → PersonAcc) (m : PersonMap)
    (h : (m.map (fun e => e.1)).Nodup) :
    (((groups.foldl (fun m e => alModify m e.1 emptyAcc (g e.1 e.2)) m)).map
        (fun e => e.1)).Nodup := by
  induction groups generalizing m with
  | nil => exact h
  | cons e gs ih =>
    rw [List.foldl_cons]
    exact ih _ (nodupKeys_alModify m e.1 emptyAcc _ h)

theorem nodupKeys_seedAuthors (prs : List PRData) (m : PersonMap)
    (h : (m.map (fun e => e.1)).Nodup) :
    ((seedAuthors prs m).map (fun e => e.1)).Nodup := by
  induction prs generalizing m with
  | nil => exact h
  | cons pr prs ih =>
    have hstep : seedAuthors (pr :: prs) m =
        seedAuthors prs
          (if isBot pr.author then m
           else
             alModify m pr.author emptyAcc (fun d =>
               { d with
                   prsOpened := d.prsOpened + 1
                   ownPRNumbers := setAdd d.ownPRNumbers pr.number })) := by
      unfold seedAuthors
      rw [List.foldl_cons]
    rw [hstep]
    by_cases hb : isBot pr.author
    · rw [if_pos hb]
      exact ih m h
    · rw [if_neg hb]
      exact ih _ (nodupKeys_alModify m pr.author emptyAcc _ h)

theorem nodupKeys_processReviews (reviews : ReviewsMap)
    (reviewRequests : RequestsMap) (comments : CommentsMap) (m : PersonMap)
    (h : (m.map (fun e => e.1)).Nodup) :
    ((processReviews reviews reviewRequests comments m).map (fun e => e.1)).Nodup := by
  induction reviews generalizing m with
  | nil => exact h
  | cons entry rest ih =>
    have hstep : processReviews (entry :: rest) reviewRequests comments m =
        processReviews rest reviewRequests comments
          (processReviewsStep reviewRequests comments m entry) := by
      unfold processReviews
      rw [List.foldl_cons]
    rw [hstep]
    exact ih _ (nodupKeys_foldGroups _ _ m h)

theorem nodupKeys_processComments (comments : CommentsMap)
    (reviewRequests : RequestsMap) (m : PersonMap)
    (h : (m.map (fun e => e.1)).Nodup) :
    ((processComments comments reviewRequests m).map (fun e => e.1)).Nodup := by
  induction comments generalizing m with
  | nil => exact h
  | cons entry rest ih =>
    have hstep : processComments (entry :: rest) reviewRequests m =
        processComments rest reviewRequests
          (processCommentsStep reviewRequests m entry) := by
      unfold processComments
      rw [List.foldl_cons]
    rw [hstep]
    exact ih _ (nodupKeys_foldGroups _ _ m h)

/-! ### Value predicates preserved through the stages -/

theorem valuesOk_alModify {K β : Type} [DecidableEq K] {Pd : β → Prop}
    {m : List (K × β)} {k : K} {dflt : β} {f : β → β}
    (h : ∀ e ∈ m, Pd e.2) (hdflt : Pd dflt) (hf : ∀ d, Pd d → Pd (f d)) :
    ∀ e ∈ alModify m k dflt f, Pd e.2 := by
  intro e he
  rcases mem_alModify_elim he with hin | heq
  · exact h e hin
  · rw [heq]
    apply hf
    cases hget : alGet m k with
    | none => exact hdflt
    | some v =>
      have hv : ∃ e0 ∈ m, e0.2 = v := by
        unfold alGet at hget
        cases hfind : m.find? (fun x => decide (x.1 = k)) with
        | none => rw [hfind] at hget; simp at hget
        | some e0 =>
          rw [hfind] at hget
          simp at hget
          exact ⟨e0, List.mem_of_find?_eq_some hfind, hget⟩
      obtain ⟨e0, he0, hv2⟩ := hv
      simp only [Option.getD_some]
      rw [← hv2]
      exact h e0 he0

theorem valuesOk_foldGroups {β : Type} {Pd : PersonAcc → Prop}
    (groups : List (String × β)) (g : String → β → PersonAcc → PersonAcc)
    (m : PersonMap) (h : ∀ e ∈ m, Pd e.2) (hempty : Pd emptyAcc)
    (hg : ∀ k b d, Pd d → Pd (g k b d)) :
    ∀ e ∈ groups.foldl (fun m e => alModify m e.1 emptyAcc (g e.1 e.2)) m,
      Pd e.2 := by
  induction groups generalizing m with
  | nil => exact h
  | cons x gs ih =>
    rw [List.foldl_cons]
    exact ih _ (valuesOk_alModify h hempty (hg x.1 x.2))

theorem valuesOk_seedAuthors {Pd : PersonAcc → Prop} (prs : List PRData)
    (m : PersonMap) (h : ∀ e ∈ m, Pd e.2) (hempty : Pd emptyAcc)
    (hf : ∀ (pr : PRData) (d : PersonAcc), Pd d →
      Pd { d with
            prsOpened := d.prsOpened + 1
            ownPRNumbers := setAdd d.ownPRNumbers pr.number }) :
    ∀ e ∈ seedAuthors prs m, Pd e.2 := by
  induction prs generalizing m with
  | nil => exact h
  | cons pr prs ih =>
    have hstep : seedAuthors (pr :: prs) m =
        seedAuthors prs
          (if isBot pr.author then m
           else
             alModify m pr.author emptyAcc (fun d =>
               { d with
                   prsOpened := d.prsOpened + 1
                   ownPRNumbers := setAdd d.ownPRNumbers pr.number })) := by
      unfold seedAuthors
      rw [List.foldl_cons]
    rw [hstep]
    by_cases hb : isBot pr.author
    · rw [if_pos hb]
      exact ih m h
    · rw [if_neg hb]
      exact ih _ (valuesOk_alModify h hempty (hf pr))

theorem valuesOk_processReviews {Pd : PersonAcc → Prop} (reviews : ReviewsMap)
    (reviewRequests : RequestsMap) (comments : CommentsMap) (m : PersonMap)
    (h : ∀ e ∈ m, Pd e.2) (hempty : Pd emptyAcc)
    (hg : ∀ n reqs cmts k b d, Pd d → Pd (processReviewerForPR n reqs cmts k b d)) :
    ∀ e ∈ processReviews reviews reviewRequests comments m, Pd e.2 := by
  induction reviews generalizing m with
  | nil => exact h
  | cons entry rest ih =>
    have hstep : processReviews (entry :: rest) reviewRequests comments m =
        processReviews rest reviewRequests comments
          (processReviewsStep reviewRequests comments m entry) := by
      unfold processReviews
      rw [List.foldl_cons]
    rw [hstep]
    exact ih _ (valuesOk_foldGroups _ _ m h hempty (fun k b d => hg entry.1 _ _ k b d))

theorem valuesOk_processComments {Pd : PersonAcc → Prop} (comments : CommentsMap)
    (reviewRequests : RequestsMap) (m : PersonMap)
    (h : ∀ e ∈ m, Pd e.2) (hempty : Pd emptyAcc)
    (hg : ∀ n reqs k b d, Pd d → Pd (processCommenterForPR n reqs k b d)) :
    ∀ e ∈ processComments comments reviewRequests m, Pd e.2 := by
  induction comments generalizing m with
  | nil => exact h
  | cons entry rest ih =>
    have hstep : processComments (entry :: rest) reviewRequests m =
        processComments rest reviewRequests
          (processCommentsStep reviewRequests m entry) := by
      unfold processComments
      rw [List.foldl_cons]
    rw [hstep]
    exact ih _ (valuesOk_foldGroups _ _ m h hempty (fun k b d => hg entry.1 _ k b d))

/-- No accumulated detail stub ever carries the `OWN_PR` status; that status
is produced only during materialization. -/
def noOwnStubs (d : PersonAcc) : Prop :=
  ∀ st ∈ d.prDetailsMap, st.2.reviewStatus ≠ ReviewStatus.OWN_PR

theorem statusOfState_ne_own (s : ReviewState) :
    statusOfState s ≠ ReviewStatus.OWN_PR := by
  cases s <;> decide

theorem noOwnStubs_emptyAcc : noOwnStubs emptyAcc := by
  intro st hst
  cases hst

theorem noOwnStubs_processReviewerForPR (n : Nat) (reqs : List ReviewRequestData)
    (cmts : List CommentData) (k : String) (b : List ReviewData) (d : PersonAcc)
    (h : noOwnStubs d) : noOwnStubs (processReviewerForPR n reqs cmts k b d) := by
  unfold processReviewerForPR
  cases hl : (sortReviews b).getLast? with
  | none => exact h
  | some latestReview =>
    intro st hst
    rcases mem_alSet_elim hst with hin | heq
    · exact h st hin
    · rw [heq]
      exact statusOfState_ne_own latestReview.state

theorem noOwnStubs_processCommenterForPR (n : Nat) (reqs : List ReviewRequestData)
    (k : String) (b : List CommentData) (d : PersonAcc)
    (h : noOwnStubs d) : noOwnStubs (processCommenterForPR n reqs k b d) := by
  unfold processCommenterForPR
  by_cases hsome : (alGet d.prDetailsMap n).isSome
  · rw [if_pos hsome]
    exact h
  · rw [if_neg hsome]
    intro st hst
    rcases mem_alSet_elim hst with hin | heq
    · exact h st hin
    · rw [heq]
      intro hcontra
      cases hcontra

theorem noOwnStubs_finalPersonMap (prs : List PRData) (reviews : ReviewsMap)
    (reviewRequests : RequestsMap) (comments : CommentsMap) :
    ∀ e ∈ finalPersonMap prs reviews reviewRequests comments, noOwnStubs e.2 := by
  unfold finalPersonMap
  apply valuesOk_processComments
  · apply valuesOk_processReviews
    · apply valuesOk_seedAuthors
      · intro e he
        cases he
      · exact noOwnStubs_emptyAcc
      · intro pr d hd
        exact hd
    · exact noOwnStubs_emptyAcc
    · intro n reqs cmts k b d hd
      exact noOwnStubs_processReviewerForPR n reqs cmts k b d hd
  · exact noOwnStubs_emptyAcc
  · intro n reqs k b d hd
    exact noOwnStubs_processCommenterForPR n reqs k b d hd

/-! ### Observables of the final person map -/

theorem ownOf_finalPersonMap (prs : List PRData) (reviews : ReviewsMap)
    (reviewRequests : RequestsMap) (comments : CommentsMap) (p : String) :
    ownOf (finalPersonMap prs reviews reviewRequests comments) p =
      ((prs.filter (authoredBy p)).map (fun pr => pr.number)).foldl setAdd [] := by
  unfold finalPersonMap
  rw [ownOf_processComments, ownOf_processReviews]
  unfold ownOf
  rw [seed_get prs [] p]
  simp only [alGet_nil]
  by_cases hany : prs.any (authoredBy p) = true
  · rw [if_pos hany]
    simp only [Option.getD_some]
    rw [seedP_ownPRNumbers]
    rfl
  · rw [if_neg hany]
    simp only [Option.getD_none]
    have hfilter : prs.filter (authoredBy p) = [] := by
      rw [List.filter_eq_nil_iff]
      intro pr hpr
      intro hcontra
      exact hany (List.any_eq_true.mpr ⟨pr, hpr, hcontra⟩)
    rw [hfilter]
    rfl

theorem reviewedOf_finalPersonMap (prs : List PRData) (reviews : ReviewsMap)
    (reviewRequests : RequestsMap) (comments : CommentsMap) (p : String) :
    reviewedOf (finalPersonMap prs reviews reviewRequests comments) p =
      (prNumbersReviewedBy reviews p).foldl setAdd [] := by
  unfold finalPersonMap
  rw [reviewedOf_processComments, reviewedOf_processReviews]
  have hseed : reviewedOf (seedAuthors prs []) p = [] := by
    unfold reviewedOf
    rw [seed_get prs [] p]
    simp only [alGet_nil]
    by_cases hany : prs.any (authoredBy p) = true
    · rw [if_pos hany]
      simp only [Option.getD_some]
      rw [seedP_prsReviewedSet]
      rfl
    · rw [if_neg hany]
      rfl
  rw [hseed]

theorem nodupKeys_finalPersonMap (prs : List PRData) (reviews : ReviewsMap)
    (reviewRequests : RequestsMap) (comments : CommentsMap) :
    ((finalPersonMap prs reviews reviewRequests comments).map (fun e => e.1)).Nodup := by
  unfold finalPersonMap
  apply nodupKeys_processComments
  apply nodupKeys_processReviews
  apply nodupKeys_seedAuthors
  simp

/-- Every output record comes from a final-map entry, recoverable by key. -/
theorem mem_calculateStats_elim {prs : List PRData} {reviews : ReviewsMap}
    {reviewRequests : RequestsMap} {comments : CommentsMap} {now : Int}
    {s : PersonStats} (hs : s ∈ calculateStats prs reviews reviewRequests comments now) :
    ∃ acc,
      alGet (finalPersonMap prs reviews reviewRequests comments) s.person = some acc ∧
        s = finalizePerson prs reviews now s.person acc := by
  unfold calculateStats sortStats at hs
  have hmem := (List.perm_insertionSort statsLE _).mem_iff.mp hs
  obtain ⟨e, he, heq⟩ := List.mem_map.mp hmem
  have hperson : s.person = e.1 := by rw [← heq]; rfl
  refine ⟨e.2, ?_, ?_⟩
  · rw [hperson]
    exact alGet_of_mem_nodupKeys (nodupKeys_finalPersonMap prs reviews reviewRequests comments) he
  · rw [hperson, heq]

/-! ### Claim theorems -/

/-- Modelled from the spec: the median of an ascending-sorted collection is
the middle element for an odd count, and the arithmetic mean of the two
middle elements for an even count. -/
def medianSpec (sorted : List Int) : Rat :=
  if sorted.length % 2 = 0 then
    (((sorted.getD (sorted.length / 2 - 1) 0 : Int) : Rat) +
      ((sorted.getD (sorted.length / 2) 0 : Int) : Rat)) / 2
  else ((sorted.getD (sorted.length / 2) 0 : Int) : Rat)

/-- C8: `calculateTimeMetrics` of an empty collection is absent, never a
zero-filled record; for a non-empty collection the median is the median of
the ascending sort (middle element when odd, mean of the two middle elements
when even); in particular the median of [10,20,30,40] is 25 and the median
of [10,20,30] is 20. -/
theorem timeMetrics_median_spec :
    calculateTimeMetrics [] = none ∧
    (∀ l : List Int, l ≠ [] →
      ∃ m, calculateTimeMetrics l = some m ∧
        m.median = medianSpec (sortDurations l)) ∧
    (calculateTimeMetrics [10, 20, 30, 40]).map TimeMetrics.median = some 25 ∧
    (calculateTimeMetrics [10, 20, 30]).map TimeMetrics.median = some 20 := by
  refine ⟨rfl, ?_, ?_, ?_⟩
  · intro l hl
    unfold calculateTimeMetrics medianSpec
    rw [if_neg (fun h => hl (List.length_eq_zero.mp h))]
    exact ⟨_, rfl, rfl⟩
  · have hs : sortDurations [10, 20, 30, 40] = [10, 20, 30, 40] := by decide
    simp [calculateTimeMetrics, hs]
    norm_num
  · have hs : sortDurations [10, 20, 30] = [10, 20, 30] := by decide
    simp [calculateTimeMetrics, hs]

/-- C8 witness: the generic median characterization applied to `[10]`. -/
theorem timeMetrics_median_spec_witness :
    ∃ m, calculateTimeMetrics [10] = some m ∧
      m.median = medianSpec (sortDurations [10]) :=
  timeMetrics_median_spec.2.1 [10] (by decide)

/-- C2: for a (PR, reviewer) pair with at least one review and pairwise
distinct submission timestamps, the review `r` selected by the code is a
member with the strictly latest submission timestamp, and exactly one tally
bucket — the bucket of `r`'s outcome — is incremented; earlier reviews
contribute nothing. -/
theorem lastReviewWins (prNumber : Nat) (reqs : List ReviewRequestData)
    (cmts : List CommentData) (reviewer : String) (revs : List ReviewData)
    (d : PersonAcc) (r : ReviewData)
    (hr : latestOf revs = some r)
    (hdist : (revs.map (fun x => x.submittedAt)).Nodup) :
    r ∈ revs ∧
    (∀ x ∈ revs, x ≠ r → x.submittedAt < r.submittedAt) ∧
    ((processReviewerForPR prNumber reqs cmts reviewer revs d).reviewsApproved +
        (processReviewerForPR prNumber reqs cmts reviewer revs d).reviewsCommented +
        (processReviewerForPR prNumber reqs cmts reviewer revs d).reviewsChangesRequested =
      d.reviewsApproved + d.reviewsCommented + d.reviewsChangesRequested + 1) ∧
    ((processReviewerForPR prNumber reqs cmts reviewer revs d).reviewsApproved =
      d.reviewsApproved + (if r.state = .APPROVED then 1 else 0)) ∧
    ((processReviewerForPR prNumber reqs cmts reviewer revs d).reviewsCommented =
      d.reviewsCommented + (if r.state = .COMMENTED then 1 else 0)) ∧
    ((processReviewerForPR prNumber reqs cmts reviewer revs d).reviewsChangesRequested =
      d.reviewsChangesRequested + (if r.state = .CHANGES_REQUESTED then 1 else 0)) := by
  obtain ⟨hmem, hmax⟩ := latestOf_spec hr
  refine ⟨hmem, ?_, ?_, ?_, ?_, ?_⟩
  · intro x hx hne
    rcases lt_or_eq_of_le (hmax x hx) with hlt | heq
    · exact hlt
    · exact absurd (List.inj_on_of_nodup_map hdist hx hmem heq) hne
  all_goals rw [processReviewerForPR_of_latest hr]
  all_goals cases r.state <;> simp <;> omega

/-- C2 witness: a reviewer who commented at t=10 and approved at t=20 is
tallied once, in the approved bucket only. -/
theorem lastReviewWins_witness :
    (⟨1, "bob", ReviewState.APPROVED, 20⟩ : ReviewData) ∈
        ([⟨1, "bob", .COMMENTED, 10⟩, ⟨1, "bob", .APPROVED, 20⟩] : List ReviewData) ∧
    (processReviewerForPR 1 [] [] "bob"
        [⟨1, "bob", .COMMENTED, 10⟩, ⟨1, "bob", .APPROVED, 20⟩] emptyAcc).reviewsApproved =
      emptyAcc.reviewsApproved + 1 ∧
    (processReviewerForPR 1 [] [] "bob"
        [⟨1, "bob", .COMMENTED, 10⟩, ⟨1, "bob", .APPROVED, 20⟩] emptyAcc).reviewsCommented =
      emptyAcc.reviewsCommented + 0 := by
  have h := lastReviewWins 1 [] [] "bob"
    [⟨1, "bob", .COMMENTED, 10⟩, ⟨1, "bob", .APPROVED, 20⟩] emptyAcc
    ⟨1, "bob", ReviewState.APPROVED, 20⟩ (by decide) (by decide)
  refine ⟨h.1, ?_, ?_⟩
  · have := h.2.2.2.1
    simpa using this
  · have := h.2.2.2.2.1
    simpa using this

/-- C3 (amended): the response-time origin for a (PR, reviewer) pair is the
first matching request record in the order the request collection lists them
(`Array.prototype.find`), used identically at both call sites; when the
collection is ascending by request time, that record carries the earliest
request timestamp for the pair. Later request entries are never matched. -/
theorem findRequestFor_first (reqs : List ReviewRequestData) (reviewer : String)
    (req : ReviewRequestData) (h : findRequestFor reqs reviewer = some req) :
    req ∈ reqs ∧ req.reviewer = reviewer ∧
    (∃ l1 l2, reqs = l1 ++ req :: l2 ∧ ∀ x ∈ l1, x.reviewer ≠ reviewer) ∧
    ((reqs.map (fun x => x.requestedAt)).Sorted intLE →
      ∀ x ∈ reqs, x.reviewer = reviewer → req.requestedAt ≤ x.requestedAt) := by
  unfold findRequestFor at h
  obtain ⟨hpred, l1, l2, hsplit, hbefore⟩ := List.find?_eq_some.mp h
  have hrev : req.reviewer = reviewer := by simpa using hpred
  have hnotbefore : ∀ x ∈ l1, x.reviewer ≠ reviewer := by
    intro x hx
    have := hbefore x hx
    simpa using this
  refine ⟨?_, hrev, ⟨l1, l2, hsplit, hnotbefore⟩, ?_⟩
  · rw [hsplit]
    exact List.mem_append.mpr (Or.inr (List.mem_cons_self _ _))
  · intro hsorted x hx hxrev
    rw [hsplit] at hx hsorted
    rw [List.map_append, List.map_cons] at hsorted
    have hpair := (List.pairwise_append.mp hsorted).2.1
    rw [List.pairwise_cons] at hpair
    rcases List.mem_append.mp hx with hx1 | hx2
    · exact absurd hxrev (hnotbefore x hx1)
    · rcases List.mem_cons.mp hx2 with rfl | hx3
      · exact le_refl _
      · exact hpair.1 x.requestedAt (List.mem_map.mpr ⟨x, hx3, rfl⟩)

/-- C3 amended-claim witness: with requests listed [t=100, t=50] for bob, the
origin used is the first record (t=100). -/
theorem findRequestFor_first_witness :
    (⟨1, "bob", 100⟩ : ReviewRequestData) ∈
        ([⟨1, "bob", 100⟩, ⟨1, "bob", 50⟩] : List ReviewRequestData) ∧
    (⟨1, "bob", 100⟩ : ReviewRequestData).reviewer = "bob" := by
  have h := findRequestFor_first [⟨1, "bob", 100⟩, ⟨1, "bob", 50⟩] "bob"
    ⟨1, "bob", 100⟩ (by decide)
  exact ⟨h.1, h.2.1⟩

/-- C3 counterexample: review requests for (PR 1, bob) listed [t=100, t=50],
bob's only interaction at t=60.  The earliest request timestamp is 50 and
60 - 50 ≥ 0, so under the claimed earliest-origin policy a time-to-first-
comment would be recorded; the code matches the first record (t=100),
computes 60 - 100 < 0 and records nothing. -/
theorem requestOrigin_counterexample :
    ((calculateStats [⟨1, "t", "alice", 0, 0, none, none, .open_, false⟩]
          [(1, [⟨1, "bob", .COMMENTED, 60⟩])]
          [(1, [⟨1, "bob", 100⟩, ⟨1, "bob", 50⟩])] [] 0).map
        (fun s => (s.person, s.timeToFirstComment)) =
      [("alice", none), ("bob", none)]) ∧
    (50 : Int) < 100 ∧ (50 : Int) ≤ 60 := by
  refine ⟨by decide, by decide, by decide⟩

theorem computeTiming_fst (reqs : List ReviewRequestData)
    (cmts : List CommentData) (reviewer : String)
    (sortedReviews : List ReviewData) (req : ReviewRequestData)
    (hreq : findRequestFor reqs reviewer = some req) :
    (computeTiming reqs cmts reviewer sortedReviews).1 =
      match (interactionTimes sortedReviews (personCommentsOf cmts reviewer)).head? with
      | none => none
      | some t0 =>
        if 0 ≤ t0 - req.requestedAt then some (t0 - req.requestedAt) else none := by
  unfold computeTiming
  rw [hreq]

theorem computeTiming_snd (reqs : List ReviewRequestData)
    (cmts : List CommentData) (reviewer : String)
    (sortedReviews : List ReviewData) (req : ReviewRequestData)
    (hreq : findRequestFor reqs reviewer = some req) :
    (computeTiming reqs cmts reviewer sortedReviews).2.1 =
      match sortedReviews.find? (fun x => formalState x.state) with
      | none => none
      | some fr =>
        if 0 ≤ fr.submittedAt - req.requestedAt then
          some (fr.submittedAt - req.requestedAt)
        else none := by
  unfold computeTiming
  rw [hreq]

theorem computeTiming_thd (reqs : List ReviewRequestData)
    (cmts : List CommentData) (reviewer : String)
    (sortedReviews : List ReviewData) (req : ReviewRequestData)
    (hreq : findRequestFor reqs reviewer = some req) :
    (computeTiming reqs cmts reviewer sortedReviews).2.2 =
      match sortedReviews.find? (fun x => formalState x.state) with
      | none => none
      | some fr =>
        if 0 ≤ fr.submittedAt - req.requestedAt then
          some (fr.submittedAt - req.requestedAt)
        else none := by
  unfold computeTiming
  rw [hreq]

/-- C5: each negative computed elapsed time is dropped independently: a
negative first-interaction delta is added to no timing collection and leaves
the stub's first-comment field absent (even when the formal-review delta is
non-negative), a negative formal-review delta is added to neither the
first-review nor the approval collection and leaves the stub's first-review
field absent, and in every case the detail stub carrying the latest review's
outcome classification is still recorded. -/
theorem negativeDuration_policy (prNumber : Nat) (reqs : List ReviewRequestData)
    (cmts : List CommentData) (reviewer : String) (revs : List ReviewData)
    (d : PersonAcc) (req : ReviewRequestData) (r : ReviewData)
    (hreq : findRequestFor reqs reviewer = some req)
    (hr : latestOf revs = some r) :
    (∀ t0, (interactionTimes (sortReviews revs)
          (personCommentsOf cmts reviewer)).head? = some t0 →
      t0 - req.requestedAt < 0 →
      (processReviewerForPR prNumber reqs cmts reviewer revs d).timeToFirstComment =
        d.timeToFirstComment ∧
      ((alGet (processReviewerForPR prNumber reqs cmts reviewer revs d).prDetailsMap
          prNumber).bind (fun st => st.firstCommentTime)) = none) ∧
    (∀ fr, (sortReviews revs).find? (fun x => formalState x.state) = some fr →
      fr.submittedAt - req.requestedAt < 0 →
      (processReviewerForPR prNumber reqs cmts reviewer revs d).timeToFirstReview =
        d.timeToFirstReview ∧
      (processReviewerForPR prNumber reqs cmts reviewer revs d).timeToApproval =
        d.timeToApproval ∧
      ((alGet (processReviewerForPR prNumber reqs cmts reviewer revs d).prDetailsMap
          prNumber).bind (fun st => st.firstReviewTime)) = none) ∧
    alGet (processReviewerForPR prNumber reqs cmts reviewer revs d).prDetailsMap
        prNumber =
      some { reviewStatus := statusOfState r.state
             firstCommentTime :=
               (computeTiming reqs cmts reviewer (sortReviews revs)).1
             firstReviewTime :=
               (computeTiming reqs cmts reviewer (sortReviews revs)).2.1 } := by
  refine ⟨?_, ?_, ?_⟩
  · intro t0 ht0 hneg
    have hfct : (computeTiming reqs cmts reviewer (sortReviews revs)).1 = none := by
      rw [computeTiming_fst reqs cmts reviewer (sortReviews revs) req hreq, ht0]
      dsimp only
      rw [if_neg (by omega)]
    rw [processReviewerForPR_of_latest hr]
    constructor
    · simp only []
      rw [hfct]
      simp
    · simp only []
      rw [alGet_alSet, if_pos rfl]
      simp [hfct]
  · intro fr hfr hneg
    have hfrt : (computeTiming reqs cmts reviewer (sortReviews revs)).2.1 = none := by
      rw [computeTiming_snd reqs cmts reviewer (sortReviews revs) req hreq, hfr]
      dsimp only
      rw [if_neg (by omega)]
    have hapt : (computeTiming reqs cmts reviewer (sortReviews revs)).2.2 = none := by
      rw [computeTiming_thd reqs cmts reviewer (sortReviews revs) req hreq, hfr]
      dsimp only
      rw [if_neg (by omega)]
    rw [processReviewerForPR_of_latest hr]
    refine ⟨?_, ?_, ?_⟩
    · simp only []
      rw [hfrt]
      simp
    · simp only []
      rw [hapt]
      simp
    · simp only []
      rw [alGet_alSet, if_pos rfl]
      simp [hfrt]
  · rw [processReviewerForPR_of_latest hr]
    simp only []
    rw [alGet_alSet, if_pos rfl]

/-- C5 witness, two scenarios. Mixed: comment at t=50, request at t=100,
approval at t=150 — the negative first-comment delta is dropped and its stub
field absent, while the non-negative formal-review delta of 50 is still
recorded. All-negative: approval at t=40 against a request at t=100 — the
first-review and approval collections stay empty, the stub field is absent,
yet the APPROVED classification is recorded. -/
theorem negativeDuration_policy_witness :
    (processReviewerForPR 1 [⟨1, "bob", 100⟩] [⟨1, "bob", 50⟩] "bob"
        [⟨1, "bob", .APPROVED, 150⟩] emptyAcc).timeToFirstComment =
      emptyAcc.timeToFirstComment ∧
    ((alGet (processReviewerForPR 1 [⟨1, "bob", 100⟩] [⟨1, "bob", 50⟩] "bob"
        [⟨1, "bob", .APPROVED, 150⟩] emptyAcc).prDetailsMap 1).bind
      (fun st => st.firstCommentTime)) = none ∧
    (processReviewerForPR 1 [⟨1, "bob", 100⟩] [⟨1, "bob", 50⟩] "bob"
        [⟨1, "bob", .APPROVED, 150⟩] emptyAcc).timeToFirstReview = [50] ∧
    (processReviewerForPR 1 [⟨1, "bob", 100⟩] [] "bob"
        [⟨1, "bob", .APPROVED, 40⟩] emptyAcc).timeToFirstReview =
      emptyAcc.timeToFirstReview ∧
    (processReviewerForPR 1 [⟨1, "bob", 100⟩] [] "bob"
        [⟨1, "bob", .APPROVED, 40⟩] emptyAcc).timeToApproval =
      emptyAcc.timeToApproval ∧
    ((alGet (processReviewerForPR 1 [⟨1, "bob", 100⟩] [] "bob"
        [⟨1, "bob", .APPROVED, 40⟩] emptyAcc).prDetailsMap 1).bind
      (fun st => st.firstReviewTime)) = none ∧
    alGet (processReviewerForPR 1 [⟨1, "bob", 100⟩] [] "bob"
        [⟨1, "bob", .APPROVED, 40⟩] emptyAcc).prDetailsMap 1 =
      some { reviewStatus := statusOfState ReviewState.APPROVED
             firstCommentTime := none
             firstReviewTime := none } := by
  have hA := negativeDuration_policy 1 [⟨1, "bob", 100⟩] [⟨1, "bob", 50⟩] "bob"
    [⟨1, "bob", .APPROVED, 150⟩] emptyAcc ⟨1, "bob", 100⟩
    ⟨1, "bob", ReviewState.APPROVED, 150⟩ (by decide) (by decide)
  have hA1 := hA.1 50 (by decide) (by decide)
  have hB := negativeDuration_policy 1 [⟨1, "bob", 100⟩] [] "bob"
    [⟨1, "bob", .APPROVED, 40⟩] emptyAcc ⟨1, "bob", 100⟩
    ⟨1, "bob", ReviewState.APPROVED, 40⟩ (by decide) (by decide)
  have hB2 := hB.2.1 ⟨1, "bob", ReviewState.APPROVED, 40⟩ (by decide) (by decide)
  refine ⟨hA1.1, hA1.2, by decide, hB2.1, hB2.2.1, hB2.2.2, ?_⟩
  have hB3 := hB.2.2
  simpa using hB3

/-- C10: an exactly-zero elapsed time is appended to the person's aggregate
timing collection and stored in the stub — for the first-comment metric when
the earliest interaction coincides with the request, and for the
first-review metric when the first formal review coincides with the request
— yet the materialized detail row shows null for a stored 0 (JavaScript
`0 || null`) in both the first-comment and the first-review field. -/
theorem zeroDuration_edge (prNumber : Nat) (reqs : List ReviewRequestData)
    (cmts : List CommentData) (reviewer : String) (revs : List ReviewData)
    (d : PersonAcc) (req : ReviewRequestData) (r : ReviewData)
    (hreq : findRequestFor reqs reviewer = some req)
    (hr : latestOf revs = some r) :
    (∀ t0, (interactionTimes (sortReviews revs)
          (personCommentsOf cmts reviewer)).head? = some t0 →
      t0 = req.requestedAt →
      (processReviewerForPR prNumber reqs cmts reviewer revs d).timeToFirstComment =
        d.timeToFirstComment ++ [0] ∧
      ((alGet (processReviewerForPR prNumber reqs cmts reviewer revs d).prDetailsMap
          prNumber).bind (fun st => st.firstCommentTime)) = some 0) ∧
    (∀ fr, (sortReviews revs).find? (fun x => formalState x.state) = some fr →
      fr.submittedAt = req.requestedAt →
      (processReviewerForPR prNumber reqs cmts reviewer revs d).timeToFirstReview =
        d.timeToFirstReview ++ [0] ∧
      ((alGet (processReviewerForPR prNumber reqs cmts reviewer revs d).prDetailsMap
          prNumber).bind (fun st => st.firstReviewTime)) = some 0) ∧
    (∀ (reviews : ReviewsMap) (now : Int) (acc : PersonAcc) (pr : PRData),
      (alGet acc.prDetailsMap pr.number).bind (fun st => st.firstCommentTime) =
          some 0 →
        (buildDetail reviews now acc pr).firstCommentTime = none) ∧
    (∀ (reviews : ReviewsMap) (now : Int) (acc : PersonAcc) (pr : PRData),
      (alGet acc.prDetailsMap pr.number).bind (fun st => st.firstReviewTime) =
          some 0 →
        (buildDetail reviews now acc pr).firstReviewTime = none) := by
  refine ⟨?_, ?_, ?_, ?_⟩
  · intro t0 ht0 hzero
    have hfct : (computeTiming reqs cmts reviewer (sortReviews revs)).1 =
        some 0 := by
      rw [computeTiming_fst reqs cmts reviewer (sortReviews revs) req hreq, ht0]
      dsimp only
      rw [hzero, if_pos (by omega)]
      simp
    rw [processReviewerForPR_of_latest hr]
    constructor
    · simp only []
      rw [hfct]
      rfl
    · simp only []
      rw [alGet_alSet, if_pos rfl]
      simp [hfct]
  · intro fr hfr hzero
    have hfrt : (computeTiming reqs cmts reviewer (sortReviews revs)).2.1 =
        some 0 := by
      rw [computeTiming_snd reqs cmts reviewer (sortReviews revs) req hreq, hfr]
      dsimp only
      rw [hzero, if_pos (by omega)]
      simp
    rw [processReviewerForPR_of_latest hr]
    constructor
    · simp only []
      rw [hfrt]
      rfl
    · simp only []
      rw [alGet_alSet, if_pos rfl]
      simp [hfrt]
  · intro reviews now acc pr h
    unfold buildDetail
    simp only []
    rw [h]
    rfl
  · intro reviews now acc pr h
    unfold buildDetail
    simp only []
    rw [h]
    rfl

/-- C10 witness: an approval submitted exactly at the request time yields a
0 in both the first-comment and the first-review collection, a stored 0 in
both stub fields, and null in both materialized detail fields. -/
theorem zeroDuration_edge_witness :
    (processReviewerForPR 1 [⟨1, "bob", 100⟩] [] "bob"
        [⟨1, "bob", .APPROVED, 100⟩] emptyAcc).timeToFirstComment =
      emptyAcc.timeToFirstComment ++ [0] ∧
    (processReviewerForPR 1 [⟨1, "bob", 100⟩] [] "bob"
        [⟨1, "bob", .APPROVED, 100⟩] emptyAcc).timeToFirstReview =
      emptyAcc.timeToFirstReview ++ [0] ∧
    ((alGet (processReviewerForPR 1 [⟨1, "bob", 100⟩] [] "bob"
        [⟨1, "bob", .APPROVED, 100⟩] emptyAcc).prDetailsMap 1).bind
      (fun st => st.firstCommentTime)) = some 0 ∧
    ((alGet (processReviewerForPR 1 [⟨1, "bob", 100⟩] [] "bob"
        [⟨1, "bob", .APPROVED, 100⟩] emptyAcc).prDetailsMap 1).bind
      (fun st => st.firstReviewTime)) = some 0 ∧
    (buildDetail [] 0 (processReviewerForPR 1 [⟨1, "bob", 100⟩] [] "bob"
        [⟨1, "bob", .APPROVED, 100⟩] emptyAcc) witPR).firstCommentTime = none ∧
    (buildDetail [] 0 (processReviewerForPR 1 [⟨1, "bob", 100⟩] [] "bob"
        [⟨1, "bob", .APPROVED, 100⟩] emptyAcc) witPR).firstReviewTime = none := by
  have h := zeroDuration_edge 1 [⟨1, "bob", 100⟩] [] "bob"
    [⟨1, "bob", .APPROVED, 100⟩] emptyAcc ⟨1, "bob", 100⟩
    ⟨1, "bob", ReviewState.APPROVED, 100⟩ (by decide) (by decide)
  have h1 := h.1 100 (by decide) (by decide)
  have h2 := h.2.1 ⟨1, "bob", ReviewState.APPROVED, 100⟩ (by decide) (by decide)
  have hnum : witPR.number = 1 := rfl
  refine ⟨h1.1, h2.1, h1.2, h2.2, ?_, ?_⟩
  · refine h.2.2.1 [] 0
      (processReviewerForPR 1 [⟨1, "bob", 100⟩] [] "bob"
        [⟨1, "bob", .APPROVED, 100⟩] emptyAcc) witPR ?_
    rw [hnum]
    exact h1.2
  · refine h.2.2.2 [] 0
      (processReviewerForPR 1 [⟨1, "bob", 100⟩] [] "bob"
        [⟨1, "bob", .APPROVED, 100⟩] emptyAcc) witPR ?_
    rw [hnum]
    exact h2.2

theorem alGet_some_elim {K β : Type} [DecidableEq K] {m : List (K × β)} {k : K}
    {v : β} (h : alGet m k = some v) : ∃ e ∈ m, e.1 = k ∧ e.2 = v := by
  unfold alGet at h
  cases hfind : m.find? (fun e => decide (e.1 = k)) with
  | none => rw [hfind] at h; simp at h
  | some e =>
    rw [hfind] at h
    simp at h
    have hkey : e.1 = k := by simpa using List.find?_some hfind
    exact ⟨e, List.mem_of_find?_eq_some hfind, hkey, h⟩

theorem buildDetail_prNumber (reviews : ReviewsMap) (now : Int) (d : PersonAcc)
    (pr : PRData) : (buildDetail reviews now d pr).prNumber = pr.number := rfl

theorem buildDetail_reviewerCount (reviews : ReviewsMap) (now : Int)
    (d : PersonAcc) (pr : PRData) :
    (buildDetail reviews now d pr).reviewerCount =
      reviewerCountFor reviews pr.number := rfl

theorem finalizePerson_prDetails (prs : List PRData) (reviews : ReviewsMap)
    (now : Int) (p : String) (d : PersonAcc) :
    (finalizePerson prs reviews now p d).prDetails =
      prs.map (buildDetail reviews now d) := rfl

/-- C1: every output person's detail list has exactly the length of the PR
input, and (under the data model's uniqueness of PR numbers) contains exactly
one entry for each PR of the window. -/
theorem detailList_complete (prs : List PRData) (reviews : ReviewsMap)
    (reviewRequests : RequestsMap) (comments : CommentsMap) (now : Int)
    (s : PersonStats)
    (hs : s ∈ calculateStats prs reviews reviewRequests comments now) :
    s.prDetails.length = prs.length ∧
    ((prs.map (fun pr => pr.number)).Nodup →
      ∀ pr ∈ prs,
        (s.prDetails.filter (fun dt => decide (dt.prNumber = pr.number))).length =
          1) := by
  obtain ⟨acc, hacc, hsval⟩ := mem_calculateStats_elim hs
  have hdetails : s.prDetails = prs.map (buildDetail reviews now acc) := by
    rw [hsval, finalizePerson_prDetails]
  constructor
  · rw [hdetails, List.length_map]
  · intro hnd pr hpr
    rw [hdetails]
    rw [← List.countP_eq_length_filter, List.countP_map]
    have hcongr :
        List.countP
            ((fun dt => decide (dt.prNumber = pr.number)) ∘
              buildDetail reviews now acc) prs =
          List.countP (fun x => decide (x.number = pr.number)) prs := by
      apply List.countP_congr
      intro x _
      rfl
    rw [hcongr]
    have hcount : (prs.map (fun pr => pr.number)).count pr.number = 1 :=
      List.count_eq_one_of_mem hnd (List.mem_map.mpr ⟨pr, hpr, rfl⟩)
    rw [List.count, List.countP_map] at hcount
    rw [← hcount]
    apply List.countP_congr
    intro x _
    rw [Bool.eq_iff_iff]
    simp

/-- C1 witness: the single-PR window gives alice a one-element detail list
with exactly one entry for PR 1. -/
theorem detailList_complete_witness :
    witStats ∈ calculateStats [witPR] [] [] [] 0 ∧
    witStats.prDetails.length = 1 ∧
    (witStats.prDetails.filter (fun dt => decide (dt.prNumber = 1))).length = 1 := by
  have hmem : witStats ∈ calculateStats [witPR] [] [] [] 0 := by decide
  have h := detailList_complete [witPR] [] [] [] 0 witStats hmem
  refine ⟨hmem, h.1, ?_⟩
  have h2 := h.2 (by decide) witPR (by decide)
  simpa using h2

/-- C4 (amended): every detail row's `reviewerCount` equals the number of
distinct non-bot identities who submitted at least one review of ANY outcome
(approved, commented, or changes-requested) on that PR; the value is a
function of the PR number alone, hence identical in every person's row for
the same PR. -/
theorem reviewerCount_rows (prs : List PRData) (reviews : ReviewsMap)
    (reviewRequests : RequestsMap) (comments : CommentsMap) (now : Int)
    (s : PersonStats)
    (hs : s ∈ calculateStats prs reviews reviewRequests comments now) :
    (∀ dt ∈ s.prDetails, dt.reviewerCount = reviewerCountFor reviews dt.prNumber) ∧
    (∀ n : Nat, reviewerCountFor reviews n =
      (dedupFirst
          ((((alGet reviews n).getD []).filter
              (fun r => !isBot r.reviewer)).map (fun r => r.reviewer))).length) := by
  constructor
  · obtain ⟨acc, hacc, hsval⟩ := mem_calculateStats_elim hs
    have hdetails : s.prDetails = prs.map (buildDetail reviews now acc) := by
      rw [hsval, finalizePerson_prDetails]
    rw [hdetails]
    intro dt hdt
    obtain ⟨pr, hpr, hpreq⟩ := List.mem_map.mp hdt
    rw [← hpreq, buildDetail_reviewerCount, buildDetail_prNumber]
  · intro n
    unfold reviewerCountFor dedupFirst
    congr 1
    generalize ((alGet reviews n).getD []) = l
    induction l using List.reverseRecOn with
    | nil => rfl
    | append_singleton l r ih =>
      rw [List.foldl_append, List.filter_append, List.map_append, List.foldl_append,
        ih]
      by_cases hb : isBot r.reviewer
      · simp [hb]
      · simp [hb]

/-- C4 counterexample: a PR whose only review has outcome COMMENTED (a
non-formal review by the spec's glossary) still gets `reviewerCount = 1` in
every detail row, while the number of distinct formal reviewers is 0. -/
theorem reviewerCount_counterexample :
    ((calculateStats [⟨1, "t", "alice", 0, 0, none, none, .open_, false⟩]
          [(1, [⟨1, "bob", .COMMENTED, 60⟩])] [] [] 0).map
        (fun s => (s.person, s.prDetails.map (fun dt => dt.reviewerCount))) =
      [("alice", [1]), ("bob", [1])]) ∧
    (([⟨1, "bob", .COMMENTED, 60⟩] : List ReviewData).filter
        (fun r => formalState r.state) = []) := by
  refine ⟨by decide, by decide⟩

/-- C4 amended-claim witness: the row characterization applied to alice's row
of the single-PR, single-COMMENTED-review input. -/
theorem reviewerCount_rows_witness :
    witStats2 ∈ calculateStats [witPR] [(1, [witRev])] [] [] 0 ∧
    witDetail2.reviewerCount = reviewerCountFor [(1, [witRev])] witDetail2.prNumber := by
  have hmem : witStats2 ∈ calculateStats [witPR] [(1, [witRev])] [] [] 0 := by
    decide
  have h := reviewerCount_rows [witPR] [(1, [witRev])] [] [] 0 witStats2 hmem
  exact ⟨hmem, h.1 witDetail2 (by decide)⟩

/-- C7 (amended): the aggregator is deterministic in its inputs AND the
ambient clock reading: two evaluations with identical inputs and the same
`Date.now()` value are identical. (Without fixing the clock the output is
not a function of the four inputs; see the counterexample.) -/
theorem determinism_amended (prs : List PRData) (reviews : ReviewsMap)
    (reviewRequests : RequestsMap) (comments : CommentsMap) (now1 now2 : Int)
    (h : now1 = now2) :
    calculateStats prs reviews reviewRequests comments now1 =
      calculateStats prs reviews reviewRequests comments now2 := by
  rw [h]

/-- C7 witness: the amended determinism at a concrete input and clock. -/
theorem determinism_amended_witness :
    calculateStats [⟨1, "t", "alice", 0, 0, none, none, .open_, false⟩] [] [] [] 5 =
      calculateStats [⟨1, "t", "alice", 0, 0, none, none, .open_, false⟩] [] [] [] 5 :=
  determinism_amended [⟨1, "t", "alice", 0, 0, none, none, .open_, false⟩] [] [] []
    5 5 rfl

/-- C7 counterexample: the same four inputs evaluated at two different clock
readings give different outputs — `ageInDays` (and `timeOpen` of the open PR)
change with `Date.now()`, so `calculateStats` is not a function of the four
inputs alone. -/
theorem determinism_counterexample :
    calculateStats [⟨1, "t", "alice", 0, 0, none, none, .open_, false⟩] [] [] [] 0 ≠
      calculateStats [⟨1, "t", "alice", 0, 0, none, none, .open_, false⟩] [] [] []
        86400000 := by
  intro h
  have h2 := congrArg
    (List.map (fun s => s.prDetails.map (fun dt => dt.ageInDays))) h
  exact absurd h2 (by decide)

theorem buildDetail_reviewStatus (reviews : ReviewsMap) (now : Int)
    (d : PersonAcc) (pr : PRData) :
    (buildDetail reviews now d pr).reviewStatus =
      if decide (pr.number ∈ d.ownPRNumbers) = true then ReviewStatus.OWN_PR
      else
        match alGet d.prDetailsMap pr.number with
        | some stub => stub.reviewStatus
        | none => ReviewStatus.NOT_REVIEWED := rfl

/-- C9: a detail row is classified OWN_PR exactly when the row's person is
the (non-bot) author of a window PR with that row's PR number; in particular
the author's own row is always OWN_PR regardless of any stub, and no other
person's row is ever OWN_PR. -/
theorem ownPR_exclusive (prs : List PRData) (reviews : ReviewsMap)
    (reviewRequests : RequestsMap) (comments : CommentsMap) (now : Int)
    (s : PersonStats)
    (hs : s ∈ calculateStats prs reviews reviewRequests comments now)
    (dt : PersonPRDetail) (hdt : dt ∈ s.prDetails) :
    dt.reviewStatus = ReviewStatus.OWN_PR ↔
      ∃ pr ∈ prs, authoredBy s.person pr = true ∧ pr.number = dt.prNumber := by
  obtain ⟨acc, hacc, hsval⟩ := mem_calculateStats_elim hs
  have hdetails : s.prDetails = prs.map (buildDetail reviews now acc) := by
    rw [hsval, finalizePerson_prDetails]
  rw [hdetails] at hdt
  obtain ⟨pr, hpr, hpreq⟩ := List.mem_map.mp hdt
  have hnum : dt.prNumber = pr.number := by rw [← hpreq, buildDetail_prNumber]
  have hown : acc.ownPRNumbers =
      ((prs.filter (authoredBy s.person)).map (fun pr => pr.number)).foldl
        setAdd [] := by
    have h1 : ownOf (finalPersonMap prs reviews reviewRequests comments) s.person =
        acc.ownPRNumbers := by
      unfold ownOf
      rw [hacc]
      rfl
    rw [← h1, ownOf_finalPersonMap]
  have hmemiff : pr.number ∈ acc.ownPRNumbers ↔
      ∃ x ∈ prs, authoredBy s.person x = true ∧ x.number = pr.number := by
    rw [hown, mem_foldl_setAdd]
    constructor
    · rintro (h | h)
      · cases h
      · obtain ⟨x, hx, hxn⟩ := List.mem_map.mp h
        exact ⟨x, (List.mem_filter.mp hx).1, (List.mem_filter.mp hx).2, hxn⟩
    · rintro ⟨x, hx, hax, hxn⟩
      exact Or.inr (List.mem_map.mpr ⟨x, List.mem_filter.mpr ⟨hx, hax⟩, hxn⟩)
  have hnoOwn : noOwnStubs acc := by
    obtain ⟨e, he, hek, hev⟩ := alGet_some_elim hacc
    rw [← hev]
    exact noOwnStubs_finalPersonMap prs reviews reviewRequests comments e he
  rw [← hpreq, buildDetail_reviewStatus, buildDetail_prNumber]
  by_cases hmem : pr.number ∈ acc.ownPRNumbers
  · rw [if_pos (by simpa using hmem)]
    constructor
    · intro _
      exact hmemiff.mp hmem
    · intro _
      rfl
  · rw [if_neg (by simpa using hmem)]
    constructor
    · intro hcontra
      cases hst : alGet acc.prDetailsMap pr.number with
      | none =>
        rw [hst] at hcontra
        cases hcontra
      | some stub =>
        rw [hst] at hcontra
        obtain ⟨e2, he2, hek2, hev2⟩ := alGet_some_elim hst
        have := hnoOwn e2 he2
        rw [hev2] at this
        exact absurd hcontra this
    · intro hex
      exact absurd (hmemiff.mpr hex) hmem

/-- C9 witness: alice's row for her own PR is OWN_PR, and the iff holds at
that concrete row. -/
theorem ownPR_exclusive_witness :
    witDetail.reviewStatus = ReviewStatus.OWN_PR ↔
      ∃ pr ∈ [witPR],
        authoredBy witStats.person pr = true ∧ pr.number = witDetail.prNumber :=
  ownPR_exclusive [witPR] [] [] [] 0 witStats (by decide) witDetail (by decide)

theorem finalizePerson_eligible (prs : List PRData) (reviews : ReviewsMap)
    (now : Int) (p : String) (d : PersonAcc) :
    (finalizePerson prs reviews now p d).eligiblePRsForReview =
      (prs.length : Int) - (d.ownPRNumbers.length : Int) := rfl

theorem finalizePerson_unique (prs : List PRData) (reviews : ReviewsMap)
    (now : Int) (p : String) (d : PersonAcc) :
    (finalizePerson prs reviews now p d).uniquePRsReviewed =
      (d.prsReviewedSet.filter (fun n => !decide (n ∈ d.ownPRNumbers))).length := rfl

/-- C6 (amended): eligiblePRsForReview equals the window size minus the
person's (non-bot) own-PR count; uniquePRsReviewed equals the number of
distinct non-own PRs on which the person submitted at least one non-bot
review of ANY outcome (not only formal ones); and the participation rate is
uniquePRsReviewed/eligiblePRsForReview × 100, or 0 when
eligiblePRsForReview is not positive — never a division failure. -/
theorem summary_derivation (prs : List PRData) (reviews : ReviewsMap)
    (reviewRequests : RequestsMap) (comments : CommentsMap) (now : Int)
    (hnd : (prs.map (fun pr => pr.number)).Nodup) (s : PersonStats)
    (hs : s ∈ calculateStats prs reviews reviewRequests comments now) :
    s.eligiblePRsForReview =
      (prs.length : Int) - ((prs.filter (authoredBy s.person)).length : Int) ∧
    s.uniquePRsReviewed =
      distinctCount
        ((prNumbersReviewedBy reviews s.person).filter
          (fun n =>
            !(prs.any (fun pr => authoredBy s.person pr && decide (pr.number = n))))) ∧
    s.reviewParticipationRate =
      (if 0 < s.eligiblePRsForReview then
        ((s.uniquePRsReviewed : Nat) : Rat) /
            ((s.eligiblePRsForReview : Int) : Rat) * 100
      else 0) := by
  obtain ⟨acc, hacc, hsval⟩ := mem_calculateStats_elim hs
  have h1 : s.eligiblePRsForReview =
      (prs.length : Int) - (acc.ownPRNumbers.length : Int) :=
    congrArg (fun x => x.eligiblePRsForReview) hsval
  have h2 : s.uniquePRsReviewed =
      (acc.prsReviewedSet.filter (fun n => !decide (n ∈ acc.ownPRNumbers))).length :=
    congrArg (fun x => x.uniquePRsReviewed) hsval
  have h3 : s.reviewParticipationRate =
      (if 0 < (prs.length : Int) - (acc.ownPRNumbers.length : Int) then
        (((acc.prsReviewedSet.filter
              (fun n => !decide (n ∈ acc.ownPRNumbers))).length : Nat) : Rat) /
            (((prs.length : Int) - (acc.ownPRNumbers.length : Int) : Int) : Rat) * 100
      else 0) :=
    congrArg (fun x => x.reviewParticipationRate) hsval
  have hown : acc.ownPRNumbers =
      ((prs.filter (authoredBy s.person)).map (fun pr => pr.number)).foldl
        setAdd [] := by
    have hobs : ownOf (finalPersonMap prs reviews reviewRequests comments) s.person =
        acc.ownPRNumbers := by
      unfold ownOf
      rw [hacc]
      rfl
    rw [← hobs, ownOf_finalPersonMap]
  have hLnodup :
      ((prs.filter (authoredBy s.person)).map (fun pr => pr.number)).Nodup :=
    List.Nodup.sublist (List.Sublist.map (fun pr => pr.number)
      (List.filter_sublist prs)) hnd
  have hownL : acc.ownPRNumbers =
      (prs.filter (authoredBy s.person)).map (fun pr => pr.number) := by
    rw [hown, foldl_setAdd_of_nodup_disjoint _ _ hLnodup (by simp)]
    simp
  have hrev : acc.prsReviewedSet =
      (prNumbersReviewedBy reviews s.person).foldl setAdd [] := by
    have hobs : reviewedOf (finalPersonMap prs reviews reviewRequests comments)
        s.person = acc.prsReviewedSet := by
      unfold reviewedOf
      rw [hacc]
      rfl
    rw [← hobs, reviewedOf_finalPersonMap]
  refine ⟨?_, ?_, ?_⟩
  · rw [h1, hownL, List.length_map]
  · rw [h2, hrev, filter_foldl_setAdd]
    have hfc :
        (prNumbersReviewedBy reviews s.person).filter
            (fun n => !decide (n ∈ acc.ownPRNumbers)) =
          (prNumbersReviewedBy reviews s.person).filter
            (fun n =>
              !(prs.any (fun pr => authoredBy s.person pr && decide (pr.number = n)))) := by
      apply List.filter_congr
      intro n _
      congr 1
      rw [Bool.eq_iff_iff]
      rw [hownL]
      simp only [decide_eq_true_eq, List.any_eq_true, Bool.and_eq_true,
        List.mem_map, List.mem_filter]
      constructor
      · rintro ⟨x, ⟨hx, hax⟩, hxn⟩
        exact ⟨x, hx, hax, by simpa using hxn⟩
      · rintro ⟨x, hx, hax, hxn⟩
        exact ⟨x, ⟨hx, hax⟩, by simpa using hxn⟩
    rw [hfc]
    rfl
  · rw [h3, ← h1, ← h2]

/-- C6 counterexample: bob's only review on another person's PR has outcome
COMMENTED (not a formal review by the spec's glossary), yet
`uniquePRsReviewed = 1`; the number of distinct PRs he formally reviewed
is 0. -/
theorem summary_counterexample :
    ((calculateStats
          [⟨1, "t", "alice", 0, 0, none, none, .open_, false⟩,
            ⟨2, "u", "bob", 0, 0, none, none, .open_, false⟩]
          [(1, [⟨1, "bob", .COMMENTED, 60⟩])] [] [] 0).map
        (fun s => (s.person, s.uniquePRsReviewed)) =
      [("alice", 0), ("bob", 1)]) ∧
    (([⟨1, "bob", .COMMENTED, 60⟩] : List ReviewData).filter
        (fun r => formalState r.state) = []) :=
  ⟨by decide, by decide⟩

/-- C6 amended-claim witness: the summary characterization at the single-PR
window, applied to alice's record. -/
theorem summary_derivation_witness :
    witStats.eligiblePRsForReview =
      (([witPR].length : Int) -
        (([witPR].filter (authoredBy witStats.person)).length : Int)) ∧
    witStats.uniquePRsReviewed =
      distinctCount
        ((prNumbersReviewedBy [] witStats.person).filter
          (fun n =>
            !([witPR].any
              (fun pr => authoredBy witStats.person pr && decide (pr.number = n))))) ∧
    witStats.reviewParticipationRate =
      (if 0 < witStats.eligiblePRsForReview then
        ((witStats.uniquePRsReviewed : Nat) : Rat) /
            ((witStats.eligiblePRsForReview : Int) : Rat) * 100
      else 0) :=
  summary_derivation [witPR] [] [] [] 0 (by decide) witStats (by decide)
